import Mathlib

/-!
Shallow embedding of the Deeponomics order-matching and settlement engine
(src/crud.py, src/services/order_matching.py, src/models.py) and theorems
checking the natural-language specification against it.

Modelling conventions:
* Python floats (cash, prices) are modelled as exact rationals `ℚ`;
  Python ints (share counts) as `ℤ`.  `int(a // b)` on floats is `Rat.floor (a / b)`.
* String UUIDs are modelled as natural numbers handed out by an increasing
  counter `nextId`; consequently `ORDER BY id DESC ... FIRST` on transactions
  ("the latest transaction") is the transaction with the largest id.
* SQLAlchemy rows are entries of in-memory lists; `query(...).first()` is the
  first list entry matching the filter, object mutation updates that first
  matching entry in place, `db.delete` removes it, `db.add` of a fresh object
  appends at the end, and `db.commit()` is a no-op.
* Code paths on which the Python source would raise (e.g. a missing company
  inside `execute_trade`) are totalised to leave the state unchanged; no claim
  below exercises such a path.
-/

namespace Deeponomics

/-- Simulated calendar date (models Python `datetime` restricted to y/m/d). -/
structure SimDate where
  year : Nat
  month : Nat
  day : Nat
deriving DecidableEq

/-- Models `OrderType` of models.py. -/
inductive OrderType where
  | buy
  | sell
deriving DecidableEq

/-- Models `OrderSubType` of models.py. -/
inductive OrderSubType where
  | limit
  | market
deriving DecidableEq

/-- Models `DBShareholder` of models.py (the fields the engine touches). -/
structure DBShareholder where
  id : Nat
  cash : ℚ
deriving DecidableEq

/-- Models `DBCompany` of models.py (the fields the engine and the daily tick touch). -/
structure DBCompany where
  id : Nat
  stock_price : ℚ
  outstanding_shares : ℤ
  founder_id : Nat
  cash : ℚ
  short_term_investments : ℚ
  business_assets : ℚ
  working_capital : ℚ
  issued_bonds : ℚ
  issued_debt : ℚ
  annual_revenue : ℚ
  cost_of_revenue_percentage : ℚ
  rd_spend_percentage : ℚ
  capex : ℚ
  gain_loss_investments : ℚ
  change_in_nwc : ℚ
  interest_income : ℚ
  capex_percentage : ℚ
  dividend_payout_percentage : ℚ
  cash_allocation : ℚ
  dividend_account : ℚ
  dividends_paid : ℚ
  last_dividend_payout_date : SimDate
  last_update : SimDate
deriving DecidableEq

/-- Models `DBPortfolio` of models.py. -/
structure DBPortfolio where
  shareholder_id : Nat
  company_id : Nat
  shares : ℤ
deriving DecidableEq

/-- Models `Order` of models.py: `price` is `some` for LIMIT orders and `none`
for MARKET orders. -/
structure Order where
  id : Nat
  shareholder_id : Nat
  company_id : Nat
  order_type : OrderType
  order_subtype : OrderSubType
  shares : ℤ
  price : Option ℚ
deriving DecidableEq

/-- Models `Transaction` of models.py. -/
structure Transaction where
  id : Nat
  buyer_id : Nat
  seller_id : Nat
  company_id : Nat
  shares : ℤ
  price_per_share : ℚ
deriving DecidableEq

/-- The database state: the five tables plus the `GlobalSettings` simulation
date and the id counter abstracting uuid generation. -/
structure DB where
  shareholders : List DBShareholder
  companies : List DBCompany
  portfolios : List DBPortfolio
  orders : List Order
  transactions : List Transaction
  sim_date : SimDate
  nextId : Nat
deriving DecidableEq

/-- Price of an order, defaulting to 0 when absent (source code only reads
`.price` on LIMIT orders, which always carry one). -/
def oprice (o : Order) : ℚ :=
  o.price.getD 0

/-- Boolean comparison `Order.price <= q` with SQL NULL semantics (a NULL
price satisfies no comparison). -/
def priceLeB (o : Order) (q : ℚ) : Bool :=
  match o.price with
  | some p => decide (p ≤ q)
  | none => false

/-- Boolean comparison `Order.price >= q` with SQL NULL semantics. -/
def priceGeB (o : Order) (q : ℚ) : Bool :=
  match o.price with
  | some p => decide (q ≤ p)
  | none => false

/-- Update the first list entry satisfying `p` (SQLAlchemy object mutation of
the row returned by `.first()`). -/
def updateFirst (p : α → Bool) (f : α → α) : List α → List α
  | [] => []
  | x :: xs => if p x then f x :: xs else x :: updateFirst p f xs

/-- Models `crud.get_shareholder`. -/
def get_shareholder (db : DB) (sid : Nat) : Option DBShareholder :=
  db.shareholders.find? (fun s => decide (s.id = sid))

/-- Models `crud.get_company`. -/
def get_company (db : DB) (cid : Nat) : Option DBCompany :=
  db.companies.find? (fun c => decide (c.id = cid))

/-- Models `crud.get_portfolio` (first row for the (shareholder, company) pair). -/
def get_portfolio (db : DB) (sid cid : Nat) : Option DBPortfolio :=
  db.portfolios.find? (fun p => decide (p.shareholder_id = sid ∧ p.company_id = cid))

/-- Cash of a shareholder, 0 when absent (convenience for statements). -/
def cashOf (db : DB) (sid : Nat) : ℚ :=
  (get_shareholder db sid).elim 0 (fun s => s.cash)

/-- Shares held by a shareholder in a company according to the first matching
portfolio row, 0 when absent (the `portfolio.shares if portfolio else 0` idiom). -/
def holdsL (sid cid : Nat) : List DBPortfolio → ℤ
  | [] => 0
  | p :: ps =>
      if p.shareholder_id = sid ∧ p.company_id = cid then p.shares
      else holdsL sid cid ps

/-- Sum of all portfolio share counts for one company
(`Σ portfolio.shares over a company`). -/
def psum (cid : Nat) (ps : List DBPortfolio) : ℤ :=
  ((ps.filter (fun p => decide (p.company_id = cid))).map (fun p => p.shares)).sum

/-- Outstanding shares of a company, 0 when the company is absent. -/
def outstandingOf (db : DB) (cid : Nat) : ℤ :=
  (get_company db cid).elim 0 (fun c => c.outstanding_shares)

/-- Stock price of a company, 0 when the company is absent. -/
def stockPriceOf (db : DB) (cid : Nat) : ℚ :=
  (get_company db cid).elim 0 (fun c => c.stock_price)

/-- Models `crud.update_shareholder_portfolio` restricted to the portfolio
table: fetch the first row for the pair; if present add `change` to it and
delete the row when the result is `<= 0`; otherwise create a row only when
`change > 0`. -/
def upd_portfolios (sid cid : Nat) (change : ℤ) : List DBPortfolio → List DBPortfolio
  | [] => if 0 < change then [⟨sid, cid, change⟩] else []
  | p :: ps =>
      if p.shareholder_id = sid ∧ p.company_id = cid then
        if p.shares + change ≤ 0 then ps
        else { p with shares := p.shares + change } :: ps
      else p :: upd_portfolios sid cid change ps

/-- Models `crud.update_shareholder_portfolio` (crud.py lines 271-283). -/
def update_shareholder_portfolio (db : DB) (sid cid : Nat) (change : ℤ) : DB :=
  { db with portfolios := upd_portfolios sid cid change db.portfolios }

/-- Models `crud.update_shareholder_cash` (crud.py lines 285-293): add the
change to the shareholder's cash, with no sign check; missing shareholder is
only logged. -/
def update_shareholder_cash (db : DB) (sid : Nat) (change : ℚ) : DB :=
  match get_shareholder db sid with
  | some _ =>
      let shs := updateFirst (fun s => decide (s.id = sid)) (fun s => { s with cash := s.cash + change }) db.shareholders
      { db with shareholders := shs }
  | none => db

/-- Object mutation `company.stock_price = p` on the row of company `cid`. -/
def setCompanyPrice (db : DB) (cid : Nat) (p : ℚ) : DB :=
  let cs := updateFirst (fun c => decide (c.id = cid)) (fun c => { c with stock_price := p }) db.companies
  { db with companies := cs }

/-- Remove the first order with the given id (`db.delete(order)`); no-op when
absent (SQLAlchemy delete of an already-deleted object). -/
def removeOrder (db : DB) (oid : Nat) : DB :=
  { db with orders := db.orders.eraseP (fun o => decide (o.id = oid)) }

/-- Set the share count of the first order with the given id. -/
def setOrderShares (db : DB) (oid : Nat) (sh : ℤ) : DB :=
  { db with orders :=
      updateFirst (fun o => decide (o.id = oid)) (fun o => { o with shares := sh }) db.orders }

/-- Models `db.add(order)` for an order object: update the row in place when
the id is already present, otherwise insert. -/
def putOrder (db : DB) (o : Order) : DB :=
  if db.orders.any (fun q => decide (q.id = o.id)) then
    { db with orders :=
        updateFirst (fun q => decide (q.id = o.id)) (fun _ => o) db.orders }
  else { db with orders := db.orders ++ [o] }

/-- Append a freshly created transaction (`db.add(transaction)`), consuming
one fresh id.  In the source a transaction id is `str(uuid.uuid4())`: a random
string whose ordering carries no information about creation order.  The model
draws fresh distinct ids from a counter; creation order is carried by the
position in `transactions` (appends), and no theorem below may rely on the
generated ids being ordered like the appends. -/
def addTxn (db : DB) (t : Transaction) : DB :=
  { db with transactions := db.transactions ++ [t], nextId := db.nextId + 1 }

/-- The transaction with the greatest id for a company: the row
`ORDER BY Transaction.id DESC ... first()` returns (crud.py lines 78-80).
Since the source ids are random uuid4 strings compared as strings, the
greatest id does NOT single out the most recently created transaction. -/
def latestTransaction (db : DB) (cid : Nat) : Option Transaction :=
  (db.transactions.filter (fun t => decide (t.company_id = cid))).foldl
    (fun acc t =>
      match acc with
      | none => some t
      | some u => if u.id < t.id then some t else some u)
    none

/-- Modelled from the spec's words, for comparison with `latestTransaction`:
the most recent transaction for a company is the one created last, i.e. the
last matching row of the append-ordered `transactions` list. -/
def mostRecentTransaction (db : DB) (cid : Nat) : Option Transaction :=
  (db.transactions.filter (fun t => decide (t.company_id = cid))).getLast?

/-- Models `ORDER BY Order.price ASC` (stable insertion sort). -/
def sortAsc (l : List Order) : List Order :=
  l.insertionSort (fun a b => oprice a ≤ oprice b)

/-- Models `ORDER BY Order.price DESC` (stable insertion sort). -/
def sortDesc (l : List Order) : List Order :=
  l.insertionSort (fun a b => oprice b ≤ oprice a)

instance : IsTotal Order (fun a b => oprice a ≤ oprice b) :=
  ⟨fun _ _ => le_total _ _⟩

instance : IsTrans Order (fun a b => oprice a ≤ oprice b) :=
  ⟨fun _ _ _ h1 h2 => le_trans h1 h2⟩

/-- Models `crud.update_stock_price` (crud.py lines 60-98): price of the
lowest-priced open LIMIT SELL order if any, else the latest transaction price
if any, else unchanged; returns the resulting stock price (`none` when the
company does not exist). -/
def update_stock_price (db : DB) (cid : Nat) : Option ℚ × DB :=
  match get_company db cid with
  | none => (none, db)
  | some company =>
      let sellLimits := db.orders.filter
        (fun o => decide (o.company_id = cid ∧ o.order_type = OrderType.sell ∧ o.order_subtype = OrderSubType.limit))
      let new_price :=
        match (sortAsc sellLimits).head? with
        | some lowest => oprice lowest
        | none =>
            match latestTransaction db cid with
            | some t => t.price_per_share
            | none => company.stock_price
      if new_price ≠ company.stock_price then (some new_price, setCompanyPrice db cid new_price)
      else (some new_price, db)

/-- Models `schemas.OrderCreate`. -/
structure OrderCreate where
  shareholder_id : Nat
  company_id : Nat
  order_type : OrderType
  order_subtype : OrderSubType
  shares : ℤ
  price : Option ℚ
deriving DecidableEq

/-- Rejection reasons of `crud.create_order`, one per distinct error string. -/
inductive RejectReason where
  | shareholderNotFound
  | companyNotFound
  | insufficientFunds
  | notEnoughAvailableShares
  | insufficientFundsAllOrders
  | insufficientShares
deriving DecidableEq

/-- Models `crud.create_order` (crud.py lines 148-219).  Returns the created
order (`Except.ok`) or the rejection reason (`Except.error`) together with the
resulting database state.  The model commit never fails, so the final
commit-exception rollback path of the source is not represented. -/
def create_order (db : DB) (oc : OrderCreate) : Except RejectReason Order × DB :=
  match get_shareholder db oc.shareholder_id with
  | none => (Except.error RejectReason.shareholderNotFound, db)
  | some shareholder =>
      match get_company db oc.company_id with
      | none => (Except.error RejectReason.companyNotFound, db)
      | some company =>
          let total_cost := (oc.shares : ℚ) * oc.price.getD 0
          if oc.order_type = OrderType.buy ∧ oc.order_subtype = OrderSubType.limit ∧
              shareholder.cash < total_cost then
            (Except.error RejectReason.insufficientFunds, db)
          else
            let current_shares := (get_portfolio db oc.shareholder_id oc.company_id).elim 0 (fun p => p.shares)
            let current_buy_orders :=
              ((db.orders.filter (fun o => decide (o.shareholder_id = oc.shareholder_id ∧
                  o.company_id = oc.company_id ∧ o.order_type = OrderType.buy))).map (fun o => o.shares)).sum
            let available_shares := company.outstanding_shares - current_shares - current_buy_orders
            if oc.order_type = OrderType.buy ∧ available_shares < oc.shares then
              (Except.error RejectReason.notEnoughAvailableShares, db)
            else
              let total_buy_orders_cost :=
                ((db.orders.filter (fun o => decide (o.shareholder_id = oc.shareholder_id ∧
                    o.company_id = oc.company_id ∧ o.order_type = OrderType.buy ∧
                    o.order_subtype = OrderSubType.limit))).map (fun o => (o.shares : ℚ) * oprice o)).sum
              if oc.order_type = OrderType.buy ∧ oc.order_subtype = OrderSubType.limit ∧
                  shareholder.cash < total_buy_orders_cost + total_cost then
                (Except.error RejectReason.insufficientFundsAllOrders, db)
              else
                let sell_underfunded : Bool :=
                  match get_portfolio db oc.shareholder_id oc.company_id with
                  | none => true
                  | some p => decide (p.shares < oc.shares)
                if oc.order_type = OrderType.sell ∧ sell_underfunded = true then
                  (Except.error RejectReason.insufficientShares, db)
                else
                  let o : Order :=
                    { id := db.nextId
                      shareholder_id := oc.shareholder_id
                      company_id := oc.company_id
                      order_type := oc.order_type
                      order_subtype := oc.order_subtype
                      shares := oc.shares
                      price := if oc.order_subtype = OrderSubType.limit then oc.price else none }
                  (Except.ok o, { db with orders := db.orders ++ [o], nextId := db.nextId + 1 })

/-- Models `execute_trade` (order_matching.py lines 83-154).  Returns the
mutated buy and sell order objects together with the new database state.
`int(buyer.cash // trade_price)` is `Rat.floor (cash / price)`. -/
def execute_trade (buy_order sell_order : Order) (db : DB) : Order × Order × DB :=
  match get_company db buy_order.company_id with
  | none => (buy_order, sell_order, db)
  | some company =>
      match get_shareholder db buy_order.shareholder_id with
      | none => (buy_order, sell_order, db)
      | some buyer =>
          let trade_shares0 := min buy_order.shares sell_order.shares
          let buyer_current_shares :=
            (get_portfolio db buy_order.shareholder_id company.id).elim 0 (fun p => p.shares)
          let buyer_max_shares := company.outstanding_shares - buyer_current_shares
          let trade_shares1 :=
            if buyer_max_shares < trade_shares0 then buyer_max_shares else trade_shares0
          let trade_price := oprice sell_order
          let step : Option ℤ :=
            if buyer.cash < (trade_shares1 : ℚ) * trade_price then
              let max_affordable_shares := Rat.floor (buyer.cash / trade_price)
              if max_affordable_shares = 0 then none else some max_affordable_shares
            else some trade_shares1
          match step with
          | none => (buy_order, sell_order, db)
          | some trade_shares =>
              if trade_shares ≤ 0 then (buy_order, sell_order, db)
              else
                let total_trade_value := (trade_shares : ℚ) * trade_price
                let t : Transaction :=
                  { id := db.nextId
                    buyer_id := buy_order.shareholder_id
                    seller_id := sell_order.shareholder_id
                    company_id := buy_order.company_id
                    shares := trade_shares
                    price_per_share := trade_price }
                let db := addTxn db t
                let buy' := { buy_order with shares := buy_order.shares - trade_shares }
                let sell' := { sell_order with shares := sell_order.shares - trade_shares }
                let db := if sell'.shares = 0 then removeOrder db sell_order.id else putOrder db sell'
                let db := if buy'.shares = 0 then removeOrder db buy_order.id else putOrder db buy'
                let db := update_shareholder_portfolio db buy_order.shareholder_id buy_order.company_id trade_shares
                let db := update_shareholder_portfolio db sell_order.shareholder_id sell_order.company_id (-trade_shares)
                let db := update_shareholder_cash db buy_order.shareholder_id (-total_trade_value)
                let db := update_shareholder_cash db sell_order.shareholder_id total_trade_value
                let db := setCompanyPrice db company.id trade_price
                (buy', sell', db)

/-- One settlement of `execute_market_order` against a candidate order
(order_matching.py lines 214-239): append the transaction, decrement or delete
the opposing order, move shares, move cash. -/
def emoSettle (cid buyer_id seller_id : Nat) (opposing : Order) (trade_shares : ℤ)
    (t : Transaction) (db : DB) : DB :=
  let db := addTxn db t
  let db :=
    if opposing.shares - trade_shares = 0 then removeOrder db opposing.id
    else putOrder db { opposing with shares := opposing.shares - trade_shares }
  let total_trade_value := (trade_shares : ℚ) * oprice opposing
  let db := update_shareholder_portfolio db buyer_id cid trade_shares
  let db := update_shareholder_portfolio db seller_id cid (-trade_shares)
  let db := update_shareholder_cash db buyer_id (-total_trade_value)
  let db := update_shareholder_cash db seller_id total_trade_value
  db

/-- Inner loop of `execute_market_order` over the opposing limit orders.
Accumulates executed shares and created transactions.  The final `Bool` is
instrumentation only (it does not influence any state produced): it records
whether every settlement step drew a non-negative quantity of shares that the
selling party actually held at that moment. -/
def emoLoop (order : Order) :
    List Order → ℤ → DB → List Transaction → Bool → ℤ × DB × List Transaction × Bool
  | [], executed, db, txns, cov => (executed, db, txns, cov)
  | opposing :: rest, executed, db, txns, cov =>
      if order.shares ≤ executed then (executed, db, txns, cov)
      else
        let trade_shares0 := min opposing.shares (order.shares - executed)
        let trade_price := oprice opposing
        let step : Option ℤ :=
          if order.order_type = OrderType.buy then
            let max_affordable_shares := Rat.floor (cashOf db order.shareholder_id / trade_price)
            if max_affordable_shares < trade_shares0 then
              if max_affordable_shares = 0 then none else some max_affordable_shares
            else some trade_shares0
          else some trade_shares0
        match step with
        | none => emoLoop order rest executed db txns cov
        | some trade_shares =>
            let buyer_id :=
              if order.order_type = OrderType.buy then order.shareholder_id else opposing.shareholder_id
            let seller_id :=
              if order.order_type = OrderType.buy then opposing.shareholder_id else order.shareholder_id
            let t : Transaction :=
              { id := db.nextId
                buyer_id := buyer_id
                seller_id := seller_id
                company_id := order.company_id
                shares := trade_shares
                price_per_share := trade_price }
            let cov := cov &&
              decide (0 ≤ trade_shares ∧ trade_shares ≤ holdsL seller_id order.company_id db.portfolios)
            emoLoop order rest (executed + trade_shares)
              (emoSettle order.company_id buyer_id seller_id opposing trade_shares t db)
              (txns ++ [t]) cov

/-- The opposing LIMIT orders a MARKET order is matched against
(order_matching.py lines 164-188): filtered by one side of the ±10% band
around the last transaction price (or the current stock price when no
transaction exists) and sorted by price. -/
def emoCandidates (order : Order) (company : DBCompany) (db : DB) : List Order :=
  let last_price :=
    match latestTransaction db order.company_id with
    | some t => t.price_per_share
    | none => company.stock_price
  let min_valid_price := last_price * 0.9
  let max_valid_price := last_price * 1.1
  if order.order_type = OrderType.buy then
    sortAsc (db.orders.filter (fun o =>
      decide (o.company_id = order.company_id ∧ o.order_type = OrderType.sell ∧
        o.order_subtype = OrderSubType.limit) && priceLeB o max_valid_price))
  else
    sortDesc (db.orders.filter (fun o =>
      decide (o.company_id = order.company_id ∧ o.order_type = OrderType.buy ∧
        o.order_subtype = OrderSubType.limit) && priceGeB o min_valid_price))

/-- Models `execute_market_order` (order_matching.py lines 156-259): match a
MARKET order greedily against the opposing LIMIT orders of `emoCandidates`.
Returns the created transactions, the new state, and the `emoLoop`
instrumentation flag. -/
def execute_market_order (order : Order) (db : DB) : List Transaction × DB × Bool :=
  match get_company db order.company_id with
  | none => ([], db, true)
  | some company =>
      let opposing_orders := emoCandidates order company db
      if opposing_orders.isEmpty then ([], db, true)
      else
        let r := emoLoop order opposing_orders 0 db [] true
        let newShares := order.shares - r.1
        let db2 :=
          if 0 < newShares then putOrder r.2.1 { order with shares := newShares }
          else removeOrder r.2.1 order.id
        let db3 := (update_stock_price db2 order.company_id).2
        (r.2.2.1, db3, r.2.2.2)

/-- Open MARKET orders of one side for a company. -/
def marketOrdersOf (db : DB) (cid : Nat) (ty : OrderType) : List Order :=
  db.orders.filter (fun o =>
    decide (o.company_id = cid ∧ o.order_type = ty ∧ o.order_subtype = OrderSubType.market))

/-- Open LIMIT orders of one side for a company. -/
def limitOrdersOf (db : DB) (cid : Nat) (ty : OrderType) : List Order :=
  db.orders.filter (fun o =>
    decide (o.company_id = cid ∧ o.order_type = ty ∧ o.order_subtype = OrderSubType.limit))

/-- Inner loop of the limit-crossing phase of `match_orders`: one buy order
against the (threaded) list of sell orders, while `buy.price >= sell.price`;
breaks when the buy order is exhausted or prices no longer cross. -/
def limitInner (buy : Order) : List Order → DB → Order × List Order × DB
  | [], db => (buy, [], db)
  | sell :: rest, db =>
      if oprice sell ≤ oprice buy then
        let r := execute_trade buy sell db
        if r.1.shares = 0 then (r.1, r.2.1 :: rest, removeOrder r.2.2 r.1.id)
        else
          let r2 := limitInner r.1 rest r.2.2
          (r2.1, r.2.1 :: r2.2.1, r2.2.2)
      else (buy, sell :: rest, db)

/-- Outer loop of the limit-crossing phase of `match_orders` over the buy
orders; the sell list (whose entries are mutated in place) is threaded through. -/
def limitOuter : List Order → List Order → DB → DB
  | [], _, db => db
  | b :: bs, sells, db =>
      let r := limitInner b sells db
      limitOuter bs r.2.1 r.2.2

/-- The limit-crossing phase of `match_orders` (order_matching.py lines 44-75):
limit buys sorted descending against limit sells sorted ascending. -/
def limit_phase (cid : Nat) (db : DB) : DB :=
  limitOuter (sortDesc (limitOrdersOf db cid OrderType.buy))
    (sortAsc (limitOrdersOf db cid OrderType.sell)) db

/-- Models `match_orders` (order_matching.py lines 13-81): market buys, then
market sells, then the limit-crossing phase, then a final price refresh. -/
def match_orders (cid : Nat) (db : DB) : DB :=
  let db1 := (marketOrdersOf db cid OrderType.buy).foldl
    (fun d o => (execute_market_order o d).2.1) db
  let db2 := (marketOrdersOf db1 cid OrderType.sell).foldl
    (fun d o => (execute_market_order o d).2.1) db1
  let db3 := limit_phase cid db2
  (update_stock_price db3 cid).2

/-- Models `crud.execute_stock_split` (crud.py lines 567-611) for a ratio
`numerator:denominator` (the ratio-string parsing is elided; the source's
regular-split and reverse-split branches are verbatim identical).  Integer
quantities use Python floor division (`Int.fdiv`); a zero limit price is left
untouched, mirroring Python float truthiness in `if order.price:`. -/
def execute_stock_split (db : DB) (cid : Nat) (numerator denominator : ℤ) : Bool × DB :=
  match get_company db cid with
  | none => (false, db)
  | some _ =>
      let cs := updateFirst (fun c => decide (c.id = cid))
        (fun c => { c with
          outstanding_shares := Int.fdiv (c.outstanding_shares * numerator) denominator,
          stock_price := c.stock_price * (denominator : ℚ) / (numerator : ℚ) }) db.companies
      let ps := db.portfolios.map (fun p =>
        if p.company_id = cid then { p with shares := Int.fdiv (p.shares * numerator) denominator }
        else p)
      let os := db.orders.map (fun o =>
        if o.company_id = cid then
          { o with
            shares := Int.fdiv (o.shares * numerator) denominator,
            price := match o.price with
              | none => none
              | some q => if q = 0 then some q else some (q * (denominator : ℚ) / (numerator : ℚ)) }
        else o)
      (true, { db with companies := cs, portfolios := ps, orders := os })

/-- Models `crud.is_quarter_end` (crud.py lines 470-471):
`date.month in [3, 6, 9, 12] and date.day == 31`. -/
def is_quarter_end (d : SimDate) : Bool :=
  (d.month == 3 || d.month == 6 || d.month == 9 || d.month == 12) && d.day == 31

/-- Models `crud.get_next_dividend_date` (crud.py lines 551-565). -/
def get_next_dividend_date (d : SimDate) : SimDate :=
  if d.month < 3 ∨ (d.month = 3 ∧ d.day ≤ 31) then ⟨d.year, 3, 31⟩
  else if d.month < 6 ∨ (d.month = 6 ∧ d.day ≤ 30) then ⟨d.year, 6, 30⟩
  else if d.month < 9 ∨ (d.month = 9 ∧ d.day ≤ 30) then ⟨d.year, 9, 30⟩
  else if d.month < 12 ∨ (d.month = 12 ∧ d.day ≤ 31) then ⟨d.year, 12, 31⟩
  else ⟨d.year + 1, 3, 31⟩

/-- Modelled from the spec: days of a month in the Gregorian calendar (the
source relies on Python `datetime` for calendar validity, which is not under
src/); used to state what "the last calendar day of a month" means. -/
def daysInMonth (year month : Nat) : Nat :=
  if month = 2 then
    if year % 4 = 0 ∧ (year % 100 ≠ 0 ∨ year % 400 = 0) then 29 else 28
  else if month = 4 ∨ month = 6 ∨ month = 9 ∨ month = 11 then 30
  else 31

/-- Modelled from the spec: the date is the last calendar day of its month. -/
def isLastDayOfMonth (d : SimDate) : Bool :=
  d.day == daysInMonth d.year d.month

/-- Modelled from the spec: a valid Gregorian calendar date (Python `datetime`
cannot represent anything else). -/
def validDate (d : SimDate) : Bool :=
  1 ≤ d.month && d.month ≤ 12 && 1 ≤ d.day && d.day ≤ daysInMonth d.year d.month

/-- Models `crud.distribute_quarterly_dividends` (crud.py lines 473-488):
pro-rata share of the dividend account per portfolio row, 20% withholding,
credit shareholder cash, accumulate `dividends_paid`, reset the account, stamp
the payout date. -/
def distribute_quarterly_dividends (c : DBCompany) (shs : List DBShareholder)
    (ps : List DBPortfolio) (current_date : SimDate) : DBCompany × List DBShareholder :=
  let total_dividends := c.dividend_account
  let holders := ps.filter (fun p => decide (p.company_id = c.id))
  let total_shares : ℤ := (holders.map (fun p => p.shares)).sum
  let shs := holders.foldl (fun acc p =>
    let dividend_share := ((p.shares : ℚ) / (total_shares : ℚ)) * total_dividends
    let after_tax_dividend := dividend_share * 0.8
    updateFirst (fun s => decide (s.id = p.shareholder_id))
      (fun s => { s with cash := s.cash + after_tax_dividend }) acc) shs
  ({ c with
      dividends_paid := c.dividends_paid + total_dividends,
      dividend_account := 0,
      last_dividend_payout_date := current_date }, shs)

/-- Models `crud.update_company_daily` (crud.py lines 380-468), the daily
financial tick: income waterfall, working-capital adjustment, CAPEX, dividend
accrual, the quarter-end payout check, and the cash allocation.  The
simulation date is `db.sim_date` (the `GlobalSettings` row).  The successive
in-place mutations of the company object are sequenced through scalar `let`
bindings; `wcs` bundles the working-capital branch's results as
(working capital, short-term investments, remaining daily CFO). -/
def update_company_daily (db : DB) (cid : Nat) : DB :=
  match get_company db cid with
  | none => db
  | some c0 =>
      let current_date := db.sim_date
      let annual_revenue := c0.business_assets
      let daily_revenue := annual_revenue / 365
      let daily_cost_of_revenue := daily_revenue * c0.cost_of_revenue_percentage
      let daily_gross_profit := daily_revenue - daily_cost_of_revenue
      let daily_rd_spend := daily_gross_profit * c0.rd_spend_percentage
      let daily_operating_income := daily_gross_profit - daily_rd_spend
      let daily_interest_expense := (c0.issued_bonds + c0.issued_debt) * 0.05 / 365
      let daily_ebt := daily_operating_income - daily_interest_expense
      let daily_taxes := daily_ebt * 0.21
      let daily_net_income := daily_ebt - daily_taxes
      let daily_interest_income := c0.short_term_investments * (0.03 / 365)
      let sti1 := c0.short_term_investments + daily_interest_income
      let daily_cfo0 := daily_net_income + c0.gain_loss_investments / 365 + daily_interest_income
      let required_working_capital := c0.business_assets * 0.1
      let working_capital_adjustment := required_working_capital - c0.working_capital
      let wcs : ℚ × ℚ × ℚ :=
        if 0 < working_capital_adjustment then
          if working_capital_adjustment ≤ daily_cfo0 then
            (c0.working_capital + working_capital_adjustment, sti1,
              daily_cfo0 - working_capital_adjustment)
          else
            let wc1 := c0.working_capital + daily_cfo0
            let remaining_adjustment := working_capital_adjustment - daily_cfo0
            if remaining_adjustment ≤ sti1 then
              (wc1 + remaining_adjustment, sti1 - remaining_adjustment, 0)
            else
              (wc1 + sti1, 0, 0)
        else if working_capital_adjustment < 0 then
          (required_working_capital, sti1, daily_cfo0 - working_capital_adjustment)
        else (c0.working_capital, sti1, daily_cfo0)
      let daily_cfo := wcs.2.2
      let daily_capex := daily_cfo * c0.capex_percentage
      let remaining_cfo := daily_cfo - daily_capex
      let daily_dividends := remaining_cfo * c0.dividend_payout_percentage
      let dividend_account1 := c0.dividend_account + daily_dividends
      let c1 : DBCompany := { c0 with
        annual_revenue := annual_revenue
        interest_income := daily_interest_income
        change_in_nwc := working_capital_adjustment
        working_capital := wcs.1
        short_term_investments := wcs.2.1
        capex := daily_capex
        business_assets := c0.business_assets + daily_capex
        dividend_account := dividend_account1 }
      let paid : DBCompany × List DBShareholder :=
        if is_quarter_end current_date = true ∧ 0 < dividend_account1 then
          distribute_quarterly_dividends c1 db.shareholders db.portfolios current_date
        else (c1, db.shareholders)
      let remaining_cfo_after_dividends := remaining_cfo - daily_dividends
      let cash_increase := remaining_cfo_after_dividends * c0.cash_allocation
      let investments_increase := remaining_cfo_after_dividends * (1 - c0.cash_allocation)
      let c2 : DBCompany := { paid.1 with
        cash := paid.1.cash + cash_increase
        short_term_investments := paid.1.short_term_investments + investments_increase
        cost_of_revenue_percentage :=
          if 0 < c0.rd_spend_percentage then c0.cost_of_revenue_percentage * 0.9999
          else c0.cost_of_revenue_percentage
        last_update := current_date }
      let cs := updateFirst (fun x => decide (x.id = cid)) (fun _ => c2) db.companies
      { db with companies := cs, shareholders := paid.2 }

/-! ### Concrete test fixtures

`mkCompany` fills the financial-state block with the column defaults of
models.py.  Each claim below gets its own fixture states. -/

/-- A company row with the models.py column defaults for the financial block. -/
def mkCompany (id : Nat) (price : ℚ) (outst : ℤ) (founder : Nat) : DBCompany :=
  { id := id, stock_price := price, outstanding_shares := outst, founder_id := founder,
    cash := 0, short_term_investments := 0, business_assets := 100, working_capital := 0,
    issued_bonds := 0, issued_debt := 0, annual_revenue := 0, cost_of_revenue_percentage := 0.7,
    rd_spend_percentage := 0.1, capex := 0, gain_loss_investments := 0, change_in_nwc := 0,
    interest_income := 0, capex_percentage := 0.5, dividend_payout_percentage := 0,
    cash_allocation := 0.5, dividend_account := 0, dividends_paid := 0,
    last_dividend_payout_date := ⟨2020, 1, 1⟩, last_update := ⟨2020, 1, 1⟩ }

/-- C1 counterexample state: two shareholders holding one share each, so a 1:2
reverse split floors both rows to zero while outstanding floors to one. -/
def c1db : DB :=
  { shareholders := [⟨1, 0⟩, ⟨2, 0⟩]
    companies := [mkCompany 10 100 2 1]
    portfolios := [⟨1, 10, 1⟩, ⟨2, 10, 1⟩]
    orders := []
    transactions := []
    sim_date := ⟨2020, 1, 1⟩
    nextId := 1000 }

/-- C1 witness state for the `execute_trade` conjunct. -/
def c1wdb : DB :=
  { shareholders := [⟨1, 1000⟩, ⟨2, 0⟩]
    companies := [mkCompany 10 100 10 2]
    portfolios := [⟨2, 10, 10⟩]
    orders := [⟨100, 1, 10, OrderType.buy, OrderSubType.limit, 5, some 100⟩,
               ⟨101, 2, 10, OrderType.sell, OrderSubType.limit, 5, some 100⟩]
    transactions := []
    sim_date := ⟨2020, 1, 1⟩
    nextId := 1000 }

/-- The limit buy order of `c1wdb`. -/
def c1tb : Order := ⟨100, 1, 10, OrderType.buy, OrderSubType.limit, 5, some 100⟩

/-- The limit sell order of `c1wdb`. -/
def c1ts : Order := ⟨101, 2, 10, OrderType.sell, OrderSubType.limit, 5, some 100⟩

/-- C1 witness state for the `execute_market_order` conjunct. -/
def c1wdb2 : DB :=
  { shareholders := [⟨1, 10000⟩, ⟨2, 0⟩]
    companies := [mkCompany 10 120 200 2]
    portfolios := [⟨2, 10, 200⟩]
    orders := [⟨100, 2, 10, OrderType.sell, OrderSubType.limit, 100, some 120⟩,
               ⟨101, 1, 10, OrderType.buy, OrderSubType.market, 100, none⟩]
    transactions := []
    sim_date := ⟨2020, 1, 1⟩
    nextId := 1000 }

/-- The market buy order of `c1wdb2`. -/
def c1to : Order := ⟨101, 1, 10, OrderType.buy, OrderSubType.market, 100, none⟩

/-- C1 witness state for the stock-split conjunct (even holding, 1:2 split). -/
def c1wdb3 : DB :=
  { shareholders := [⟨1, 0⟩]
    companies := [mkCompany 10 100 4 1]
    portfolios := [⟨1, 10, 4⟩]
    orders := []
    transactions := []
    sim_date := ⟨2020, 1, 1⟩
    nextId := 1000 }

/-- C2 counterexample start state: shareholder 1 has 100 cash; founder 2 holds
ten shares of each of the two companies. -/
def c2db0 : DB :=
  { shareholders := [⟨1, 100⟩, ⟨2, 0⟩]
    companies := [mkCompany 10 100 10 2, mkCompany 11 100 10 2]
    portfolios := [⟨2, 10, 10⟩, ⟨2, 11, 10⟩]
    orders := []
    transactions := []
    sim_date := ⟨2020, 1, 1⟩
    nextId := 1000 }

/-- Limit buy of one share of company 10 at 100, by shareholder 1. -/
def c2o1 : OrderCreate := ⟨1, 10, OrderType.buy, OrderSubType.limit, 1, some 100⟩

/-- Limit buy of one share of company 11 at 100, by shareholder 1. -/
def c2o2 : OrderCreate := ⟨1, 11, OrderType.buy, OrderSubType.limit, 1, some 100⟩

/-- Market sell of one share of company 10, by founder 2. -/
def c2o3 : OrderCreate := ⟨2, 10, OrderType.sell, OrderSubType.market, 1, none⟩

/-- Market sell of one share of company 11, by founder 2. -/
def c2o4 : OrderCreate := ⟨2, 11, OrderType.sell, OrderSubType.market, 1, none⟩

/-- State after the four admissions of the C2 counterexample. -/
def c2db4 : DB :=
  (create_order (create_order (create_order (create_order c2db0 c2o1).2 c2o2).2 c2o3).2 c2o4).2

/-- Final state of the C2 counterexample: both matching passes have run. -/
def c2final : DB := match_orders 11 (match_orders 10 c2db4)

/-- C2 witness state (a well-formed book on which the matching pass runs). -/
def c2wdb : DB :=
  { shareholders := [⟨1, 1000⟩, ⟨2, 0⟩]
    companies := [mkCompany 10 100 10 2]
    portfolios := [⟨2, 10, 10⟩]
    orders := [⟨100, 1, 10, OrderType.buy, OrderSubType.limit, 3, some 100⟩,
               ⟨101, 2, 10, OrderType.sell, OrderSubType.limit, 3, some 100⟩]
    transactions := []
    sim_date := ⟨2020, 1, 1⟩
    nextId := 1000 }

/-- The reference price of the ±10% band: the last transaction price for the
company, or the current stock price if no transaction exists. -/
def bandRef (db : DB) (cid : Nat) : ℚ :=
  match latestTransaction db cid with
  | some t => t.price_per_share
  | none => stockPriceOf db cid

/-- C4 counterexample state: the only resting limit sell is priced at 50, far
below the lower band edge 90 around the reference price 100. -/
def c4db : DB :=
  { shareholders := [⟨1, 10000⟩, ⟨2, 0⟩]
    companies := [mkCompany 10 100 10 2]
    portfolios := [⟨2, 10, 10⟩]
    orders := [⟨100, 2, 10, OrderType.sell, OrderSubType.limit, 5, some 50⟩]
    transactions := []
    sim_date := ⟨2020, 1, 1⟩
    nextId := 1000 }

/-- The market buy executed against `c4db`. -/
def c4o : Order := ⟨101, 1, 10, OrderType.buy, OrderSubType.market, 5, none⟩

/-- C4 witness state: a limit sell inside the band. -/
def c4wdb : DB :=
  { shareholders := [⟨1, 10000⟩, ⟨2, 0⟩]
    companies := [mkCompany 10 100 10 2]
    portfolios := [⟨2, 10, 10⟩]
    orders := [⟨100, 2, 10, OrderType.sell, OrderSubType.limit, 5, some 100⟩]
    transactions := []
    sim_date := ⟨2020, 1, 1⟩
    nextId := 1000 }

/-- The market buy executed against `c4wdb`. -/
def c4wo : Order := ⟨101, 1, 10, OrderType.buy, OrderSubType.market, 5, none⟩

/-- The transaction `execute_market_order c4wo c4wdb` produces. -/
def c4wt : Transaction := ⟨1000, 1, 2, 10, 5, 100⟩

/-- C5 counterexample state: shareholder 1 holds only 5 shares but has an open
market sell of 10, and a resting limit buy of 10 is available. -/
def c5db : DB :=
  { shareholders := [⟨1, 10000⟩, ⟨2, 2000⟩]
    companies := [mkCompany 10 100 10 1]
    portfolios := [⟨1, 10, 5⟩, ⟨2, 10, 5⟩]
    orders := [⟨100, 2, 10, OrderType.buy, OrderSubType.limit, 10, some 100⟩,
               ⟨101, 1, 10, OrderType.sell, OrderSubType.market, 10, none⟩]
    transactions := []
    sim_date := ⟨2020, 1, 1⟩
    nextId := 1000 }

/-- The market sell executed against `c5db`. -/
def c5o : Order := ⟨101, 1, 10, OrderType.sell, OrderSubType.market, 10, none⟩

/-- The transaction `execute_market_order c5o c5db` produces. -/
def c5t : Transaction := ⟨1000, 2, 1, 10, 10, 100⟩

/-- C3 fixture company: 100 accrued in the dividend account, all financial
flows zeroed so the daily tick leaves the account untouched. -/
def c3comp : DBCompany :=
  { mkCompany 10 100 10 1 with
      dividend_account := 100
      business_assets := 0
      rd_spend_percentage := 0 }

/-- C3 fixture state on the last calendar day of June 2020. -/
def c3db : DB :=
  { shareholders := [⟨1, 0⟩]
    companies := [c3comp]
    portfolios := [⟨1, 10, 10⟩]
    orders := []
    transactions := []
    sim_date := ⟨2020, 6, 30⟩
    nextId := 1000 }

/-- C3 fixture state on 31 March 2020 (a day where the trigger does fire). -/
def c3db31 : DB :=
  { c3db with sim_date := ⟨2020, 3, 31⟩ }

/-- C6 witness state. -/
def c6db : DB :=
  { shareholders := [⟨1, 50⟩]
    companies := [mkCompany 10 100 10 1]
    portfolios := [⟨1, 10, 10⟩]
    orders := []
    transactions := []
    sim_date := ⟨2020, 1, 1⟩
    nextId := 1000 }

/-- A limit buy rejected for insufficient funds against `c6db`. -/
def c6oc : OrderCreate := ⟨1, 10, OrderType.buy, OrderSubType.limit, 2, some 100⟩

/-- C7 witness state: a crossing pair of limit orders. -/
def c7db : DB :=
  { shareholders := [⟨1, 1000⟩, ⟨2, 0⟩]
    companies := [mkCompany 10 100 10 2]
    portfolios := [⟨2, 10, 10⟩]
    orders := [⟨100, 1, 10, OrderType.buy, OrderSubType.limit, 5, some 120⟩,
               ⟨101, 2, 10, OrderType.sell, OrderSubType.limit, 5, some 100⟩]
    transactions := []
    sim_date := ⟨2020, 1, 1⟩
    nextId := 1000 }

/-- The transaction the limit phase produces on `c7db` (priced at the resting
sell's 100, not the buy's 120). -/
def c7t : Transaction := ⟨1000, 1, 2, 10, 5, 100⟩

/-- C8 state: the spec's example scenario.  A (id 1) holds 10,000 cash and no
shares; founder B (id 2) holds all 200 outstanding shares; B's LIMIT SELL of
100 at 120 rests in the book; A's MARKET BUY for 100 shares is open. -/
def c8db : DB :=
  { shareholders := [⟨1, 10000⟩, ⟨2, 0⟩]
    companies := [mkCompany 10 120 200 2]
    portfolios := [⟨2, 10, 200⟩]
    orders := [⟨100, 2, 10, OrderType.sell, OrderSubType.limit, 100, some 120⟩,
               ⟨101, 1, 10, OrderType.buy, OrderSubType.market, 100, none⟩]
    transactions := []
    sim_date := ⟨2020, 1, 1⟩
    nextId := 1000 }

/-- C9 company fixture. -/
def c9comp : DBCompany := mkCompany 10 90 10 2

/-- C9 witness state: two open limit sells (105 and 100) and an older
transaction at 95. -/
def c9db : DB :=
  { shareholders := [⟨1, 1000⟩, ⟨2, 0⟩]
    companies := [c9comp]
    portfolios := [⟨2, 10, 10⟩]
    orders := [⟨100, 2, 10, OrderType.sell, OrderSubType.limit, 3, some 105⟩,
               ⟨101, 2, 10, OrderType.sell, OrderSubType.limit, 3, some 100⟩]
    transactions := [⟨900, 1, 2, 10, 1, 95⟩]
    sim_date := ⟨2020, 1, 1⟩
    nextId := 1000 }

/-- C9 divergence state: no open limit sells; two transactions for company 10
where the transaction created second (price 50) drew a smaller id (30) than
the one created first (id 70, price 100) — with uuid4 string ids this happens
for about half of all pairs. -/
def c9bad : DB :=
  { shareholders := [⟨1, 1000⟩, ⟨2, 0⟩]
    companies := [c9comp]
    portfolios := [⟨2, 10, 10⟩]
    orders := []
    transactions := [⟨70, 1, 2, 10, 1, 100⟩, ⟨30, 1, 2, 10, 1, 50⟩]
    sim_date := ⟨2020, 1, 1⟩
    nextId := 1000 }

/-- C10 witness state: one row of 5 shares for the pair (1, 10). -/
def c10db : DB :=
  { shareholders := [⟨1, 1000⟩]
    companies := [mkCompany 10 100 5 1]
    portfolios := [⟨1, 10, 5⟩]
    orders := []
    transactions := []
    sim_date := ⟨2020, 1, 1⟩
    nextId := 1000 }

/-! ### Invariant predicates and basic lemmas about the state primitives -/

/-- Every stored portfolio row has a strictly positive share count. -/
abbrev rowsPos (ps : List DBPortfolio) : Prop :=
  ∀ p ∈ ps, 0 < p.shares

/-- All shareholder cash balances are non-negative. -/
abbrev cashNonneg (db : DB) : Prop :=
  ∀ s ∈ db.shareholders, 0 ≤ s.cash

@[simp]
theorem portfolios_addTxn (db : DB) (t : Transaction) :
    (addTxn db t).portfolios = db.portfolios := rfl

@[simp]
theorem transactions_addTxn (db : DB) (t : Transaction) :
    (addTxn db t).transactions = db.transactions ++ [t] := rfl

@[simp]
theorem companies_addTxn (db : DB) (t : Transaction) :
    (addTxn db t).companies = db.companies := rfl

@[simp]
theorem portfolios_removeOrder (db : DB) (oid : Nat) :
    (removeOrder db oid).portfolios = db.portfolios := rfl

@[simp]
theorem transactions_removeOrder (db : DB) (oid : Nat) :
    (removeOrder db oid).transactions = db.transactions := rfl

@[simp]
theorem companies_removeOrder (db : DB) (oid : Nat) :
    (removeOrder db oid).companies = db.companies := rfl

@[simp]
theorem portfolios_putOrder (db : DB) (o : Order) :
    (putOrder db o).portfolios = db.portfolios := by
  unfold putOrder; split <;> rfl

@[simp]
theorem transactions_putOrder (db : DB) (o : Order) :
    (putOrder db o).transactions = db.transactions := by
  unfold putOrder; split <;> rfl

@[simp]
theorem companies_putOrder (db : DB) (o : Order) :
    (putOrder db o).companies = db.companies := by
  unfold putOrder; split <;> rfl

@[simp]
theorem portfolios_setCompanyPrice (db : DB) (cid : Nat) (q : ℚ) :
    (setCompanyPrice db cid q).portfolios = db.portfolios := rfl

@[simp]
theorem transactions_setCompanyPrice (db : DB) (cid : Nat) (q : ℚ) :
    (setCompanyPrice db cid q).transactions = db.transactions := rfl

@[simp]
theorem portfolios_update_cash (db : DB) (sid : Nat) (c : ℚ) :
    (update_shareholder_cash db sid c).portfolios = db.portfolios := by
  unfold update_shareholder_cash; split <;> rfl

@[simp]
theorem transactions_update_cash (db : DB) (sid : Nat) (c : ℚ) :
    (update_shareholder_cash db sid c).transactions = db.transactions := by
  unfold update_shareholder_cash; split <;> rfl

@[simp]
theorem companies_update_cash (db : DB) (sid : Nat) (c : ℚ) :
    (update_shareholder_cash db sid c).companies = db.companies := by
  unfold update_shareholder_cash; split <;> rfl

@[simp]
theorem portfolios_update_portfolio (db : DB) (sid cid : Nat) (c : ℤ) :
    (update_shareholder_portfolio db sid cid c).portfolios =
      upd_portfolios sid cid c db.portfolios := rfl

@[simp]
theorem transactions_update_portfolio (db : DB) (sid cid : Nat) (c : ℤ) :
    (update_shareholder_portfolio db sid cid c).transactions = db.transactions := rfl

@[simp]
theorem companies_update_portfolio (db : DB) (sid cid : Nat) (c : ℤ) :
    (update_shareholder_portfolio db sid cid c).companies = db.companies := rfl

/-- `find?` over `updateFirst` with the same predicate, when the update
preserves the predicate. -/
theorem find_updateFirst_eq (p : α → Bool) (f : α → α)
    (hf : ∀ a, p a = true → p (f a) = true) :
    ∀ l : List α, (updateFirst p f l).find? p = (l.find? p).map f := by
  intro l
  induction l with
  | nil => rfl
  | cons a l ih =>
      by_cases h : p a = true
      · simp [updateFirst, h, List.find?_cons, hf a h]
      · have h' : p a = false := by simpa using h
        simp [updateFirst, h', List.find?_cons, ih]

@[simp]
theorem companies_setCompanyPrice (db : DB) (cid : Nat) (q : ℚ) :
    (setCompanyPrice db cid q).companies =
      updateFirst (fun c => decide (c.id = cid))
        (fun c => { c with stock_price := q }) db.companies := rfl

/-- Specialisation of `find_updateFirst_eq` to the stock-price mutation. -/
theorem find_company_price (cid : Nat) (q : ℚ) :
    ∀ cs : List DBCompany,
      (updateFirst (fun c => decide (c.id = cid))
          (fun c => { c with stock_price := q }) cs).find? (fun c => decide (c.id = cid)) =
        (cs.find? (fun c => decide (c.id = cid))).map (fun c => { c with stock_price := q }) := by
  intro cs
  induction cs with
  | nil => rfl
  | cons a l ih =>
      by_cases h : a.id = cid
      · simp [updateFirst, List.find?_cons, h]
      · simp [updateFirst, List.find?_cons, h, ih]

@[simp]
theorem outstandingOf_setCompanyPrice (db : DB) (cid : Nat) (q : ℚ) :
    outstandingOf (setCompanyPrice db cid q) cid = outstandingOf db cid := by
  unfold outstandingOf get_company
  rw [companies_setCompanyPrice, find_company_price]
  cases db.companies.find? (fun c => decide (c.id = cid)) <;> rfl

/-- The stock-price mutation really hits the row of company `cid`. -/
theorem stockPriceOf_setCompanyPrice (db : DB) (cid : Nat) (q : ℚ)
    (h : (get_company db cid).isSome) :
    stockPriceOf (setCompanyPrice db cid q) cid = q := by
  unfold stockPriceOf get_company
  rw [companies_setCompanyPrice, find_company_price]
  unfold get_company at h
  cases hc : db.companies.find? (fun c => decide (c.id = cid)) with
  | none => rw [hc] at h; simp at h
  | some c => rfl

@[simp]
theorem psum_nil (cid : Nat) : psum cid [] = 0 := rfl

theorem psum_cons (cid : Nat) (p : DBPortfolio) (ps : List DBPortfolio) :
    psum cid (p :: ps) = (if p.company_id = cid then p.shares else 0) + psum cid ps := by
  by_cases h : p.company_id = cid <;> simp [psum, List.filter_cons, h]

theorem holdsL_nonneg (sid cid : Nat) :
    ∀ ps : List DBPortfolio, rowsPos ps → 0 ≤ holdsL sid cid ps := by
  intro ps
  induction ps with
  | nil => intro _; exact le_refl 0
  | cons p ps ih =>
      intro h
      unfold holdsL
      split
      · exact le_of_lt (h p (List.mem_cons_self p ps))
      · exact ih (fun q hq => h q (List.mem_cons_of_mem p hq))

theorem rowsPos_upd (sid cid : Nat) (c : ℤ) :
    ∀ ps : List DBPortfolio, rowsPos ps → rowsPos (upd_portfolios sid cid c ps) := by
  intro ps
  induction ps with
  | nil =>
      intro _ q hq
      unfold upd_portfolios at hq
      split at hq
      · rcases List.mem_singleton.mp hq with rfl
        assumption
      · simp at hq
  | cons p ps ih =>
      intro h q hq
      unfold upd_portfolios at hq
      split at hq
      · rename_i hmatch
        split at hq
        · exact h q (List.mem_cons_of_mem p hq)
        · rename_i hgt
          rcases List.mem_cons.mp hq with rfl | hq'
          · simpa using lt_of_not_le hgt
          · exact h q (List.mem_cons_of_mem p hq')
      · rcases List.mem_cons.mp hq with rfl | hq'
        · exact h q (List.mem_cons_self _ _)
        · exact ih (fun r hr => h r (List.mem_cons_of_mem _ hr)) q hq'

theorem psum_upd (sid cid : Nat) (c : ℤ) :
    ∀ ps : List DBPortfolio, rowsPos ps →
      (0 < c ∨ 0 ≤ c + holdsL sid cid ps) →
      psum cid (upd_portfolios sid cid c ps) = psum cid ps + c := by
  intro ps
  induction ps with
  | nil =>
      intro _ hc
      unfold upd_portfolios
      split
      · simp [psum_cons]
      · rename_i h0
        have hz : c = 0 := by
          unfold holdsL at hc
          omega

        simp [hz]
  | cons p ps ih =>
      intro hpos hc
      have hp : 0 < p.shares := hpos p (List.mem_cons_self _ _)
      have hpos' : rowsPos ps := fun q hq => hpos q (List.mem_cons_of_mem _ hq)
      unfold upd_portfolios
      split
      · rename_i hm
        unfold holdsL at hc
        rw [if_pos hm] at hc
        split
        · rename_i hle
          rw [psum_cons, if_pos hm.2]
          omega
        · rw [psum_cons, psum_cons]
          simp only [hm.2, if_pos]
          omega
      · rename_i hm
        unfold holdsL at hc
        rw [if_neg hm] at hc
        rw [psum_cons, psum_cons, ih hpos' hc]
        omega

theorem holdsL_upd_self (sid cid : Nat) (c : ℤ) (hc : 0 < c) :
    ∀ ps : List DBPortfolio, rowsPos ps →
      holdsL sid cid (upd_portfolios sid cid c ps) = holdsL sid cid ps + c := by
  intro ps
  induction ps with
  | nil =>
      intro _
      unfold upd_portfolios
      rw [if_pos hc]
      unfold holdsL
      simp
  | cons p ps ih =>
      intro hpos
      have hp : 0 < p.shares := hpos p (List.mem_cons_self _ _)
      have hpos' : rowsPos ps := fun q hq => hpos q (List.mem_cons_of_mem _ hq)
      unfold upd_portfolios
      split
      · rename_i hm
        split
        · rename_i hle; omega
        · unfold holdsL
          rw [if_pos hm, if_pos hm]
      · rename_i hm
        unfold holdsL
        rw [if_neg hm, if_neg hm]
        exact ih hpos'

theorem holdsL_nil (sid cid : Nat) : holdsL sid cid [] = 0 := rfl

theorem holdsL_cons (sid cid : Nat) (p : DBPortfolio) (ps : List DBPortfolio) :
    holdsL sid cid (p :: ps) =
      if p.shareholder_id = sid ∧ p.company_id = cid then p.shares
      else holdsL sid cid ps := rfl

theorem holdsL_upd_ne (sid cid sid' cid' : Nat) (c : ℤ)
    (hne : ¬(sid' = sid ∧ cid' = cid)) :
    ∀ ps : List DBPortfolio,
      holdsL sid cid (upd_portfolios sid' cid' c ps) = holdsL sid cid ps := by
  intro ps
  induction ps with
  | nil =>
      unfold upd_portfolios
      split
      · rw [holdsL_cons, if_neg hne, holdsL_nil]
      · rfl
  | cons p ps ih =>
      unfold upd_portfolios
      split
      · rename_i hm
        have hpq : ¬(p.shareholder_id = sid ∧ p.company_id = cid) := by
          intro hq
          exact hne ⟨hm.1 ▸ hq.1, hm.2 ▸ hq.2⟩
        split
        · rw [holdsL_cons, if_neg hpq]
        · rw [holdsL_cons, if_neg hpq, holdsL_cons, if_neg hpq]
      · rename_i hm
        rw [holdsL_cons, holdsL_cons]
        by_cases hq : p.shareholder_id = sid ∧ p.company_id = cid
        · rw [if_pos hq, if_pos hq]
        · rw [if_neg hq, if_neg hq]
          exact ih

/-- A settlement step (buyer gains `t`, seller loses `t` in the same company)
preserves the per-company share sum and row positivity, whenever the seller's
current first-row holding covers the traded quantity. -/
theorem psum_settle (buyerId sellerId cid : Nat) (t : ℤ)
    (ps : List DBPortfolio) (hpos : rowsPos ps)
    (ht : 0 ≤ t) (hs : t ≤ holdsL sellerId cid ps) :
    psum cid (upd_portfolios sellerId cid (-t) (upd_portfolios buyerId cid t ps)) =
        psum cid ps ∧
      rowsPos (upd_portfolios sellerId cid (-t) (upd_portfolios buyerId cid t ps)) := by
  have hpos1 : rowsPos (upd_portfolios buyerId cid t ps) := rowsPos_upd _ _ _ ps hpos
  have h1 : psum cid (upd_portfolios buyerId cid t ps) = psum cid ps + t := by
    rcases lt_or_eq_of_le ht with h | h
    · exact psum_upd _ _ _ ps hpos (Or.inl h)
    · exact psum_upd _ _ _ ps hpos (Or.inr (by
        have := holdsL_nonneg buyerId cid ps hpos
        omega))
  have h2 : t ≤ holdsL sellerId cid (upd_portfolios buyerId cid t ps) := by
    rcases lt_or_eq_of_le ht with h | h
    · by_cases hbs : buyerId = sellerId
      · subst hbs
        rw [holdsL_upd_self _ _ _ h ps hpos]
        have := holdsL_nonneg buyerId cid ps hpos
        omega
      · rw [holdsL_upd_ne _ _ _ _ _ (fun hq => hbs hq.1) ps]
        exact hs
    · have := holdsL_nonneg sellerId cid (upd_portfolios buyerId cid t ps) hpos1
      omega
  refine ⟨?_, rowsPos_upd _ _ _ _ hpos1⟩
  rw [psum_upd _ _ _ _ hpos1 (Or.inr (by omega)), h1]
  omega

/-- Floor-division bound used by the affordability caps:
`int(cash // price) < t` whenever `cash < t * price` and the price is positive. -/
theorem floor_div_lt (cash price : ℚ) (t : ℤ) (hp : 0 < price)
    (h : cash < (t : ℚ) * price) : Rat.floor (cash / price) < t := by
  have hlt : cash / price < (t : ℚ) := (div_lt_iff₀ hp).mpr h
  by_contra hle
  push_neg at hle
  exact absurd (Rat.le_floor.mp hle) (not_le.mpr hlt)

/-- Case analysis of `execute_trade`: it either leaves the state untouched, or
settles a positive quantity `t`, in which case the portfolio table receives
exactly the buyer-increment/seller-decrement pair and one transaction priced at
the sell order's limit price is appended.  When the sell price is positive,
`t` never exceeds `min buy.shares sell.shares`. -/
theorem execute_trade_shape (buy sell : Order) (db : DB) :
    (execute_trade buy sell db).2.2 = db ∨
    ∃ t : ℤ, 0 < t ∧ (0 < oprice sell → t ≤ min buy.shares sell.shares) ∧
      (execute_trade buy sell db).2.2.portfolios =
        upd_portfolios sell.shareholder_id sell.company_id (-t)
          (upd_portfolios buy.shareholder_id buy.company_id t db.portfolios) ∧
      (execute_trade buy sell db).2.2.transactions = db.transactions ++
        [{ id := db.nextId, buyer_id := buy.shareholder_id,
           seller_id := sell.shareholder_id, company_id := buy.company_id,
           shares := t, price_per_share := oprice sell }] := by
  unfold execute_trade
  split
  · exact Or.inl rfl
  rename_i company hc
  split
  · exact Or.inl rfl
  rename_i buyer hs
  dsimp only
  split
  · exact Or.inl rfl
  rename_i t heq
  split
  · exact Or.inl rfl
  rename_i hpos
  refine Or.inr ⟨t, by omega, ?_, ?_, ?_⟩
  · intro hp
    split at heq
    · rename_i hBlt
      split at heq
      · rename_i hcash
        split at heq
        · exact absurd heq (by simp)
        · have ht := Option.some.inj heq
          have hfl := floor_div_lt buyer.cash (oprice sell) _ hp hcash
          omega
      · have ht := Option.some.inj heq
        omega
    · rename_i hBge
      split at heq
      · rename_i hcash
        split at heq
        · exact absurd heq (by simp)
        · have ht := Option.some.inj heq
          have hfl := floor_div_lt buyer.cash (oprice sell) _ hp hcash
          omega
      · have ht := Option.some.inj heq
        omega
  · simp [apply_ite DB.portfolios]
  · simp [apply_ite DB.transactions]

theorem outstandingOf_eq_of_companies (db1 db2 : DB) (cid : Nat)
    (h : db1.companies = db2.companies) : outstandingOf db1 cid = outstandingOf db2 cid := by
  unfold outstandingOf get_company
  rw [h]

/-- `execute_trade` never changes the traded company's outstanding share count. -/
theorem execute_trade_outstanding (buy sell : Order) (db : DB) :
    outstandingOf (execute_trade buy sell db).2.2 buy.company_id =
      outstandingOf db buy.company_id := by
  unfold execute_trade
  split
  · rfl
  rename_i company hc
  split
  · rfl
  rename_i buyer hs
  dsimp only
  split
  · rfl
  rename_i t heq
  split
  · rfl
  rename_i hpos
  have hcid : company.id = buy.company_id := by
    unfold get_company at hc
    have h1 := List.find?_some hc
    simpa using h1
  rw [hcid, outstandingOf_setCompanyPrice]
  apply outstandingOf_eq_of_companies
  simp [apply_ite DB.companies]

@[simp]
theorem portfolios_emoSettle (cid b s : Nat) (opp : Order) (ts : ℤ) (t : Transaction) (db : DB) :
    (emoSettle cid b s opp ts t db).portfolios =
      upd_portfolios s cid (-ts) (upd_portfolios b cid ts db.portfolios) := by
  simp [emoSettle, apply_ite DB.portfolios]

@[simp]
theorem companies_emoSettle (cid b s : Nat) (opp : Order) (ts : ℤ) (t : Transaction) (db : DB) :
    (emoSettle cid b s opp ts t db).companies = db.companies := by
  simp [emoSettle, apply_ite DB.companies]

@[simp]
theorem transactions_emoSettle (cid b s : Nat) (opp : Order) (ts : ℤ) (t : Transaction) (db : DB) :
    (emoSettle cid b s opp ts t db).transactions = db.transactions ++ [t] := by
  simp [emoSettle, apply_ite DB.transactions]

@[simp]
theorem portfolios_update_stock_price (db : DB) (cid : Nat) :
    (update_stock_price db cid).2.portfolios = db.portfolios := by
  unfold update_stock_price
  split
  · rfl
  · dsimp only
    split <;> rfl

theorem outstandingOf_update_stock_price (db : DB) (cid : Nat) :
    outstandingOf (update_stock_price db cid).2 cid = outstandingOf db cid := by
  unfold update_stock_price
  split
  · rfl
  · dsimp only
    split
    · exact outstandingOf_setCompanyPrice db cid _
    · rfl

/-- Induction invariant of `emoLoop`: row positivity is always preserved, the
company table is never touched, and whenever the instrumentation flag comes out
`true` the per-company share sum is preserved. -/
theorem emoLoop_shape (order : Order) :
    ∀ (cands : List Order) (ex : ℤ) (db : DB) (txns : List Transaction) (cov : Bool),
      rowsPos db.portfolios →
      rowsPos (emoLoop order cands ex db txns cov).2.1.portfolios ∧
      ((emoLoop order cands ex db txns cov).2.2.2 = true →
        cov = true ∧
        psum order.company_id (emoLoop order cands ex db txns cov).2.1.portfolios =
          psum order.company_id db.portfolios) ∧
      (emoLoop order cands ex db txns cov).2.1.companies = db.companies := by
  intro cands
  induction cands with
  | nil =>
      intro ex db txns cov hpos
      exact ⟨hpos, fun h => ⟨h, rfl⟩, rfl⟩
  | cons opp rest ih =>
      intro ex db txns cov hpos
      rw [emoLoop]
      split
      · exact ⟨hpos, fun h => ⟨h, rfl⟩, rfl⟩
      dsimp only
      split
      · exact ih ex db txns cov hpos
      rename_i ts heq
      have hpos1 : rowsPos (emoSettle order.company_id
          (if order.order_type = OrderType.buy then order.shareholder_id else opp.shareholder_id)
          (if order.order_type = OrderType.buy then opp.shareholder_id else order.shareholder_id)
          opp ts
          { id := db.nextId
            buyer_id := if order.order_type = OrderType.buy then order.shareholder_id else opp.shareholder_id
            seller_id := if order.order_type = OrderType.buy then opp.shareholder_id else order.shareholder_id
            company_id := order.company_id
            shares := ts
            price_per_share := oprice opp } db).portfolios := by
        rw [portfolios_emoSettle]
        exact rowsPos_upd _ _ _ _ (rowsPos_upd _ _ _ _ hpos)
      obtain ⟨ih1, ih2, ih3⟩ := ih _ _ _ _ hpos1
      refine ⟨ih1, ?_, by rw [ih3, companies_emoSettle]⟩
      intro hcov
      obtain ⟨hcov', hsum⟩ := ih2 hcov
      rw [Bool.and_eq_true] at hcov'
      obtain ⟨hcov0, hdec⟩ := hcov'
      obtain ⟨hts0, htsh⟩ := of_decide_eq_true hdec
      refine ⟨hcov0, ?_⟩
      rw [hsum, portfolios_emoSettle]
      exact (psum_settle _ _ _ _ db.portfolios hpos hts0 htsh).1

/-- `execute_market_order` preserves row positivity and the company's
outstanding share count; when the instrumentation flag is `true` it also
preserves the per-company share sum. -/
theorem execute_market_order_shape (o : Order) (db : DB) (hpos : rowsPos db.portfolios) :
    rowsPos (execute_market_order o db).2.1.portfolios ∧
    ((execute_market_order o db).2.2 = true →
      psum o.company_id (execute_market_order o db).2.1.portfolios =
        psum o.company_id db.portfolios) ∧
    outstandingOf (execute_market_order o db).2.1 o.company_id =
      outstandingOf db o.company_id := by
  unfold execute_market_order
  split
  · exact ⟨hpos, fun _ => rfl, rfl⟩
  rename_i company hc
  dsimp only
  split
  · exact ⟨hpos, fun _ => rfl, rfl⟩
  rename_i hne
  obtain ⟨l1, l2, l3⟩ := emoLoop_shape o (emoCandidates o company db) 0 db [] true hpos
  refine ⟨?_, ?_, ?_⟩
  · rw [portfolios_update_stock_price]
    split <;> simpa using l1
  · intro hcov
    rw [portfolios_update_stock_price]
    have := (l2 hcov).2
    split <;> simpa using this
  · rw [outstandingOf_update_stock_price]
    split
    · exact outstandingOf_eq_of_companies _ db _ (by simp [l3])
    · exact outstandingOf_eq_of_companies _ db _ (by simp [l3])

theorem dvd_psum (cid : Nat) (d : ℤ) :
    ∀ ps : List DBPortfolio, (∀ p ∈ ps, p.company_id = cid → d ∣ p.shares) →
      d ∣ psum cid ps := by
  intro ps
  induction ps with
  | nil => intro _; simp
  | cons p ps ih =>
      intro h
      rw [psum_cons]
      by_cases hc : p.company_id = cid
      · rw [if_pos hc]
        exact dvd_add (h p (List.mem_cons_self _ _) hc)
          (ih (fun q hq => h q (List.mem_cons_of_mem _ hq)))
      · rw [if_neg hc]
        simpa using ih (fun q hq => h q (List.mem_cons_of_mem _ hq))

/-- The per-portfolio floor division of a stock split is exact, in aggregated
form, when the denominator divides every holding. -/
theorem psum_split_map (cid : Nat) (n d : ℤ) (hd : 0 < d) :
    ∀ ps : List DBPortfolio, (∀ p ∈ ps, p.company_id = cid → d ∣ p.shares) →
      d * psum cid (ps.map (fun p =>
        if p.company_id = cid then { p with shares := Int.fdiv (p.shares * n) d } else p)) =
        psum cid ps * n := by
  intro ps
  induction ps with
  | nil => intro _; simp
  | cons p ps ih =>
      intro h
      have hrest := ih (fun q hq => h q (List.mem_cons_of_mem _ hq))
      by_cases hc : p.company_id = cid
      · obtain ⟨k, hk⟩ := h p (List.mem_cons_self _ _) hc
        simp only [List.map_cons, if_pos hc]
        rw [psum_cons, psum_cons]
        simp only [hc, if_pos]
        rw [hk]
        have hfd : Int.fdiv (d * k * n) d = k * n := by
          rw [mul_assoc, Int.fdiv_eq_ediv _ (le_of_lt hd)]
          exact Int.mul_ediv_cancel_left _ (ne_of_gt hd)
        rw [hfd, mul_add, hrest]
        ring
      · simp only [List.map_cons, if_neg hc]
        rw [psum_cons, psum_cons]
        simp only [hc, if_neg, if_false]
        rw [mul_add, hrest]
        ring

theorem execute_trade_rowsPos (buy sell : Order) (db : DB) (h : rowsPos db.portfolios) :
    rowsPos (execute_trade buy sell db).2.2.portfolios := by
  rcases execute_trade_shape buy sell db with heq | ⟨t, _, _, hport, _⟩
  · rw [heq]; exact h
  · rw [hport]; exact rowsPos_upd _ _ _ _ (rowsPos_upd _ _ _ _ h)

theorem limitInner_rowsPos (b : Order) :
    ∀ (sells : List Order) (db : DB), rowsPos db.portfolios →
      rowsPos (limitInner b sells db).2.2.portfolios := by
  intro sells
  induction sells generalizing b with
  | nil => intro db h; exact h
  | cons s rest ih =>
      intro db h
      rw [limitInner]
      dsimp only
      split
      · split
        · simpa using execute_trade_rowsPos b s db h
        · exact ih _ _ (execute_trade_rowsPos b s db h)
      · exact h

theorem limitOuter_rowsPos :
    ∀ (buys sells : List Order) (db : DB), rowsPos db.portfolios →
      rowsPos (limitOuter buys sells db).portfolios := by
  intro buys
  induction buys with
  | nil => intro _ db h; exact h
  | cons b bs ih =>
      intro sells db h
      rw [limitOuter]
      exact ih _ _ (limitInner_rowsPos b sells db h)

theorem foldl_emo_rowsPos :
    ∀ (os : List Order) (db : DB), rowsPos db.portfolios →
      rowsPos ((os.foldl (fun d o => (execute_market_order o d).2.1) db)).portfolios := by
  intro os
  induction os with
  | nil => intro db h; exact h
  | cons o os ih =>
      intro db h
      exact ih _ (execute_market_order_shape o db h).1

theorem match_orders_rowsPos (cid : Nat) (db : DB) (h : rowsPos db.portfolios) :
    rowsPos (match_orders cid db).portfolios := by
  unfold match_orders limit_phase
  rw [portfolios_update_stock_price]
  exact limitOuter_rowsPos _ _ _ (foldl_emo_rowsPos _ _ (foldl_emo_rowsPos _ _ h))

/-- Specialisation of `find_updateFirst_eq` to the stock-split company
mutation. -/
theorem find_company_split (cid : Nat) (n d : ℤ) :
    ∀ cs : List DBCompany,
      (updateFirst (fun c => decide (c.id = cid))
          (fun c => { c with
            outstanding_shares := Int.fdiv (c.outstanding_shares * n) d,
            stock_price := c.stock_price * (d : ℚ) / (n : ℚ) }) cs).find?
          (fun c => decide (c.id = cid)) =
        (cs.find? (fun c => decide (c.id = cid))).map
          (fun c => { c with
            outstanding_shares := Int.fdiv (c.outstanding_shares * n) d,
            stock_price := c.stock_price * (d : ℚ) / (n : ℚ) }) := by
  intro cs
  induction cs with
  | nil => rfl
  | cons a l ih =>
      by_cases h : a.id = cid
      · simp [updateFirst, List.find?_cons, h]
      · simp [updateFirst, List.find?_cons, h, ih]

/-! ### Claim theorems -/

unseal Rat.mul Rat.add Rat.sub Rat.inv Rat.ofScientific in
/-- C1 (corrected, counterexample): share conservation fails on the code as
claimed.  In `c1db` the invariant holds (sum 2 = outstanding 2), yet after the
reverse stock split `1:2` the portfolio rows floor to 0 + 0 = 0 while the
outstanding count floors to 1. -/
theorem C1_counterexample :
    psum 10 c1db.portfolios = outstandingOf c1db 10 ∧
    psum 10 (execute_stock_split c1db 10 1 2).2.portfolios ≠
      outstandingOf (execute_stock_split c1db 10 1 2).2 10 := by
  decide

/-- C1 (corrected, amended): share conservation holds for `execute_trade`
when the sell order is priced positively and the seller's holding covers
`min buy.shares sell.shares`; for `execute_market_order` whenever no
settlement step draws more shares than its selling party holds (the `emoLoop`
instrumentation flag); and for `execute_stock_split n:d` when the denominator
divides every portfolio holding of the company — in each case assuming the
invariant held before. -/
theorem C1_amended_share_conservation :
    (∀ (buy sell : Order) (db : DB),
      rowsPos db.portfolios →
      sell.company_id = buy.company_id →
      0 < oprice sell →
      min buy.shares sell.shares ≤ holdsL sell.shareholder_id buy.company_id db.portfolios →
      psum buy.company_id db.portfolios = outstandingOf db buy.company_id →
      psum buy.company_id (execute_trade buy sell db).2.2.portfolios =
        outstandingOf (execute_trade buy sell db).2.2 buy.company_id) ∧
    (∀ (o : Order) (db : DB),
      rowsPos db.portfolios →
      (execute_market_order o db).2.2 = true →
      psum o.company_id db.portfolios = outstandingOf db o.company_id →
      psum o.company_id (execute_market_order o db).2.1.portfolios =
        outstandingOf (execute_market_order o db).2.1 o.company_id) ∧
    (∀ (db : DB) (cid : Nat) (n d : ℤ),
      0 < n → 0 < d →
      (∀ p ∈ db.portfolios, p.company_id = cid → d ∣ p.shares) →
      psum cid db.portfolios = outstandingOf db cid →
      psum cid (execute_stock_split db cid n d).2.portfolios =
        outstandingOf (execute_stock_split db cid n d).2 cid) := by
  refine ⟨?_, ?_, ?_⟩
  · intro buy sell db hpos hcc hp hmin hinv
    rw [execute_trade_outstanding]
    rcases execute_trade_shape buy sell db with heq | ⟨t, ht, hbound, hport, _⟩
    · rw [heq]; exact hinv
    · rw [hport, hcc]
      rw [(psum_settle buy.shareholder_id sell.shareholder_id buy.company_id t
        db.portfolios hpos (le_of_lt ht) (le_trans (hbound hp) hmin)).1]
      exact hinv
  · intro o db hpos hcov hinv
    obtain ⟨_, l2, l3⟩ := execute_market_order_shape o db hpos
    rw [l2 hcov, l3]
    exact hinv
  · intro db cid n d hn hd hdvd hinv
    unfold execute_stock_split
    split
    · exact hinv
    rename_i company hc
    dsimp only
    rw [show (outstandingOf
        { shareholders := db.shareholders,
          companies := updateFirst (fun c => decide (c.id = cid))
            (fun c => { c with
              outstanding_shares := Int.fdiv (c.outstanding_shares * n) d,
              stock_price := c.stock_price * (d : ℚ) / (n : ℚ) }) db.companies,
          portfolios := db.portfolios.map (fun p =>
            if p.company_id = cid then { p with shares := Int.fdiv (p.shares * n) d } else p),
          orders := db.orders.map (fun o =>
            if o.company_id = cid then
              { o with
                shares := Int.fdiv (o.shares * n) d,
                price := match o.price with
                  | none => none
                  | some q => if q = 0 then some q
                      else some (q * (d : ℚ) / (n : ℚ)) }
            else o),
          transactions := db.transactions, sim_date := db.sim_date,
          nextId := db.nextId } cid) =
        Int.fdiv (company.outstanding_shares * n) d from by
      unfold outstandingOf get_company
      dsimp only
      rw [find_company_split]
      unfold get_company at hc
      rw [hc]
      rfl]
    have hmul := psum_split_map cid n d hd db.portfolios hdvd
    have hout : outstandingOf db cid = company.outstanding_shares := by
      unfold outstandingOf
      rw [hc]
      rfl
    obtain ⟨k, hk⟩ := dvd_psum cid d db.portfolios hdvd
    have hfd : Int.fdiv (company.outstanding_shares * n) d = k * n := by
      rw [← hout, ← hinv, hk, mul_assoc, Int.fdiv_eq_ediv _ (le_of_lt hd)]
      exact Int.mul_ediv_cancel_left _ (ne_of_gt hd)
    rw [hfd]
    rw [hinv, hout] at hmul
    rw [← hout, ← hinv, hk] at hmul
    have : d * psum cid (db.portfolios.map (fun p =>
        if p.company_id = cid then { p with shares := Int.fdiv (p.shares * n) d } else p)) =
        d * (k * n) := by
      rw [hmul]; ring
    exact mul_left_cancel₀ (ne_of_gt hd) this

unseal Rat.mul Rat.add Rat.sub Rat.inv Rat.ofScientific in
/-- C1 (witness): the amended conservation theorem applied at concrete states:
a crossing limit trade, the market-buy scenario, and an exact 1:2 split. -/
theorem C1_witness :
    (psum 10 (execute_trade c1tb c1ts c1wdb).2.2.portfolios =
      outstandingOf (execute_trade c1tb c1ts c1wdb).2.2 10) ∧
    (psum 10 (execute_market_order c1to c1wdb2).2.1.portfolios =
      outstandingOf (execute_market_order c1to c1wdb2).2.1 10) ∧
    (psum 10 (execute_stock_split c1wdb3 10 1 2).2.portfolios =
      outstandingOf (execute_stock_split c1wdb3 10 1 2).2 10) :=
  ⟨C1_amended_share_conservation.1 c1tb c1ts c1wdb (by decide) (by decide) (by decide)
      (by decide) (by decide),
    C1_amended_share_conservation.2.1 c1to c1wdb2 (by decide) (by decide) (by decide),
    C1_amended_share_conservation.2.2 c1wdb3 10 1 2 (by decide) (by decide) (by decide)
      (by decide)⟩

unseal Rat.mul Rat.add Rat.sub Rat.inv Rat.ofScientific in
/-- C2 (corrected, counterexample): starting from non-negative balances, four
orders are all admitted by `create_order` (two limit buys funded per company,
two market sells backed by holdings), yet running the matching pass on both
companies drives shareholder 1's cash to −100: the engine debits a resting
limit-buy owner's cash without any affordability re-check. -/
theorem C2_counterexample :
    cashNonneg c2db0 ∧ rowsPos c2db0.portfolios ∧
    (create_order c2db0 c2o1).1.toOption.isSome = true ∧
    (create_order (create_order c2db0 c2o1).2 c2o2).1.toOption.isSome = true ∧
    (create_order (create_order (create_order c2db0 c2o1).2 c2o2).2 c2o3).1.toOption.isSome
      = true ∧
    (create_order (create_order (create_order (create_order c2db0 c2o1).2 c2o2).2 c2o3).2
      c2o4).1.toOption.isSome = true ∧
    cashOf c2final 1 < 0 := by
  decide

/-- C2 (corrected, amended): the portfolio half of the claim holds — no
operation of the matching engine ever stores a portfolio row with a
non-positive share count (rows are deleted instead); the cash half fails as
the counterexample shows. -/
theorem C2_amended_no_negative_shares :
    (∀ (cid : Nat) (db : DB), rowsPos db.portfolios →
      rowsPos (match_orders cid db).portfolios) ∧
    (∀ (o : Order) (db : DB), rowsPos db.portfolios →
      rowsPos (execute_market_order o db).2.1.portfolios) ∧
    (∀ (buy sell : Order) (db : DB), rowsPos db.portfolios →
      rowsPos (execute_trade buy sell db).2.2.portfolios) :=
  ⟨match_orders_rowsPos,
    fun o db h => (execute_market_order_shape o db h).1,
    execute_trade_rowsPos⟩

unseal Rat.mul Rat.add Rat.sub Rat.inv Rat.ofScientific in
/-- C2 (witness): the amended theorem applied to a concrete matching pass. -/
theorem C2_witness :
    rowsPos c2wdb.portfolios ∧ rowsPos (match_orders 10 c2wdb).portfolios :=
  ⟨by decide, C2_amended_no_negative_shares.1 10 c2wdb (by decide)⟩

unseal Rat.mul Rat.add Rat.sub Rat.inv Rat.ofScientific in
/-- C3 (code_bug): `is_quarter_end` requires `day == 31`, so the dividend
cycle never fires on 30 June (or 30 September) even though that is the last
calendar day of the quarter — and even though the code's own
`get_next_dividend_date` announces 30 June as the next dividend date.
Concretely: on 2020-06-30 (a valid last day of a quarter month) a company with
a positive dividend account is left undistributed by `update_company_daily`
(account stays 100, nothing paid out), while on 2020-03-31 the same state
distributes (account reset to 0, 100 recorded as paid, the sole shareholder
credited 80 after the 20% withholding). -/
theorem C3_quarter_end_code_bug :
    validDate ⟨2020, 6, 30⟩ = true ∧
    isLastDayOfMonth ⟨2020, 6, 30⟩ = true ∧
    is_quarter_end ⟨2020, 6, 30⟩ = false ∧
    get_next_dividend_date ⟨2020, 4, 1⟩ = ⟨2020, 6, 30⟩ ∧
    c3comp.dividend_account = 100 ∧
    (get_company (update_company_daily c3db 10) 10).elim 0 (fun c => c.dividend_account)
      = 100 ∧
    (get_company (update_company_daily c3db 10) 10).elim 0 (fun c => c.dividends_paid)
      = 0 ∧
    cashOf (update_company_daily c3db 10) 1 = 0 ∧
    is_quarter_end ⟨2020, 3, 31⟩ = true ∧
    (get_company (update_company_daily c3db31 10) 10).elim 0 (fun c => c.dividend_account)
      = 0 ∧
    (get_company (update_company_daily c3db31 10) 10).elim 0 (fun c => c.dividends_paid)
      = 100 ∧
    cashOf (update_company_daily c3db31 10) 1 = 80 := by
  decide

/-- Every transaction `emoLoop` creates is priced at some candidate's limit
price. -/
theorem emoLoop_txn_price (order : Order) :
    ∀ (cands : List Order) (ex : ℤ) (db : DB) (txns : List Transaction) (cov : Bool),
      ∀ t ∈ (emoLoop order cands ex db txns cov).2.2.1,
        t ∈ txns ∨ ∃ o ∈ cands, t.price_per_share = oprice o := by
  intro cands
  induction cands with
  | nil => intro ex db txns cov t ht; exact Or.inl ht
  | cons opp rest ih =>
      intro ex db txns cov t ht
      rw [emoLoop] at ht
      split at ht
      · exact Or.inl ht
      dsimp only at ht
      split at ht
      · rcases ih _ _ _ _ t ht with h | ⟨o, ho, hp⟩
        · exact Or.inl h
        · exact Or.inr ⟨o, List.mem_cons_of_mem _ ho, hp⟩
      · rename_i ts heq
        rcases ih _ _ _ _ t ht with h | ⟨o, ho, hp⟩
        · rcases List.mem_append.mp h with h' | h'
          · exact Or.inl h'
          · rcases List.mem_singleton.mp h' with rfl
            exact Or.inr ⟨opp, List.mem_cons_self _ _, rfl⟩
        · exact Or.inr ⟨o, List.mem_cons_of_mem _ ho, hp⟩

/-- For a market SELL order, `emoLoop` keeps the executed total within the
order's requested quantity, and every created transaction stays within it as
well (candidate share counts assumed non-negative). -/
theorem emoLoop_sell_bound (order : Order) (hty : order.order_type = OrderType.sell) :
    ∀ (cands : List Order) (ex : ℤ) (db : DB) (txns : List Transaction) (cov : Bool),
      (∀ o ∈ cands, 0 ≤ o.shares) → ex ≤ order.shares →
      (emoLoop order cands ex db txns cov).1 ≤ order.shares ∧
      ex ≤ (emoLoop order cands ex db txns cov).1 ∧
      ∀ t ∈ (emoLoop order cands ex db txns cov).2.2.1,
        t ∈ txns ∨ (0 ≤ t.shares ∧ t.shares + ex ≤ order.shares) := by
  intro cands
  induction cands with
  | nil =>
      intro ex db txns cov _ hex
      exact ⟨hex, le_refl ex, fun t ht => Or.inl ht⟩
  | cons opp rest ih =>
      intro ex db txns cov hc hex
      have hopp : 0 ≤ opp.shares := hc opp (List.mem_cons_self _ _)
      have hc' : ∀ o ∈ rest, 0 ≤ o.shares := fun o ho => hc o (List.mem_cons_of_mem _ ho)
      rw [emoLoop]
      split
      · exact ⟨hex, le_refl ex, fun t ht => Or.inl ht⟩
      rename_i hbreak
      dsimp only
      rw [if_neg (by simp [hty])]
      dsimp only
      have hts0 : 0 ≤ min opp.shares (order.shares - ex) := le_min hopp (by omega)
      have hts1 : min opp.shares (order.shares - ex) ≤ order.shares - ex := min_le_right _ _
      obtain ⟨b1, b2, b3⟩ := ih (ex + min opp.shares (order.shares - ex)) _ _ _ hc' (by omega)
      refine ⟨b1, by omega, ?_⟩
      intro t ht
      rcases b3 t ht with h | h
      · rcases List.mem_append.mp h with h' | h'
        · exact Or.inl h'
        · rcases List.mem_singleton.mp h' with rfl
          refine Or.inr ⟨hts0, ?_⟩
          show min opp.shares (order.shares - ex) + ex ≤ order.shares
          omega
      · exact Or.inr ⟨h.1, by omega⟩

theorem bandRef_eq (db : DB) (cid : Nat) (company : DBCompany)
    (hc : get_company db cid = some company) :
    bandRef db cid = (match latestTransaction db cid with
      | some t => t.price_per_share
      | none => company.stock_price) := by
  unfold bandRef
  cases latestTransaction db cid with
  | some t => rfl
  | none =>
      unfold stockPriceOf
      rw [hc]
      rfl

unseal Rat.mul Rat.add Rat.sub Rat.inv Rat.ofScientific in
/-- C4 (corrected, counterexample): a MARKET BUY matches a limit sell at 50
although the reference price is 100, so the executed price 50 lies far outside
the claimed band `[90, 110]`: the code only filters sells against the upper
band edge. -/
theorem C4_counterexample :
    bandRef c4db 10 = 100 ∧
    (execute_market_order c4o c4db).1.map (fun t => t.price_per_share) = [50] ∧
    (50 : ℚ) < 0.9 * 100 := by
  decide

/-- C4 (corrected, amended): the band check is one-sided.  Every transaction a
market order execution creates is priced at most `1.1 × ref` for a MARKET BUY,
and at least `0.9 × ref` for a MARKET SELL, where `ref` is the last
transaction price (or the current stock price when none exists); the opposite
edge of the band is not enforced, as the counterexample shows. -/
theorem C4_amended_price_band :
    ∀ (o : Order) (db : DB) (t : Transaction),
      t ∈ (execute_market_order o db).1 →
      (o.order_type = OrderType.buy → t.price_per_share ≤ bandRef db o.company_id * 1.1) ∧
      (o.order_type = OrderType.sell → bandRef db o.company_id * 0.9 ≤ t.price_per_share) := by
  intro o db t ht
  unfold execute_market_order at ht
  split at ht
  · simp at ht
  rename_i company hc
  dsimp only at ht
  split at ht
  · simp at ht
  dsimp only at ht
  rcases emoLoop_txn_price o _ 0 db [] true t ht with h | ⟨cand, hcand, hp⟩
  · simp at h
  rw [bandRef_eq db o.company_id company hc]
  unfold emoCandidates at hcand
  dsimp only at hcand
  constructor
  · intro htype
    rw [if_pos htype] at hcand
    unfold sortAsc at hcand
    rw [List.mem_insertionSort] at hcand
    obtain ⟨-, hpred⟩ := List.mem_filter.mp hcand
    rw [Bool.and_eq_true] at hpred
    have hle := hpred.2
    unfold priceLeB at hle
    revert hle
    cases hq : cand.price with
    | none => intro hle; simp at hle
    | some q =>
        intro hle
        have hq2 := of_decide_eq_true hle
        rw [hp]
        unfold oprice
        rw [hq]
        exact hq2
  · intro htype
    rw [htype] at hcand
    rw [if_neg (by simp)] at hcand
    unfold sortDesc at hcand
    rw [List.mem_insertionSort] at hcand
    obtain ⟨-, hpred⟩ := List.mem_filter.mp hcand
    rw [Bool.and_eq_true] at hpred
    have hle := hpred.2
    unfold priceGeB at hle
    revert hle
    cases hq : cand.price with
    | none => intro hle; simp at hle
    | some q =>
        intro hle
        have hq2 := of_decide_eq_true hle
        rw [hp]
        unfold oprice
        rw [hq]
        exact hq2

unseal Rat.mul Rat.add Rat.sub Rat.inv Rat.ofScientific in
/-- C4 (witness): the amended band bound applied to a concrete in-band market
buy execution. -/
theorem C4_witness :
    c4wt ∈ (execute_market_order c4wo c4wdb).1 ∧
    c4wt.price_per_share ≤ bandRef c4wdb c4wo.company_id * 1.1 :=
  ⟨by decide, (C4_amended_price_band c4wo c4wdb c4wt (by decide)).1 (by decide)⟩

unseal Rat.mul Rat.add Rat.sub Rat.inv Rat.ofScientific in
/-- C5 (corrected, counterexample): a MARKET SELL of 10 shares by a
shareholder holding only 5 executes for the full 10 shares against a resting
limit buy: the per-candidate quantity is not capped by the seller's holding. -/
theorem C5_counterexample :
    holdsL 1 10 c5db.portfolios = 5 ∧
    c5o.order_type = OrderType.sell ∧
    (execute_market_order c5o c5db).1.map (fun t => t.shares) = [10] ∧
    (5 : ℤ) < 10 := by
  decide

/-- C5 (corrected, amended): the per-candidate quantity of a MARKET SELL is
`min(candidate.shares, order.shares − executed)` — capped by the order's
remaining requested quantity, not by the seller's holding (see the
counterexample); consequently every transaction it creates trades a
non-negative quantity of at most `order.shares`. -/
theorem C5_amended_market_sell_cap :
    ∀ (o : Order) (db : DB),
      o.order_type = OrderType.sell →
      0 ≤ o.shares →
      (∀ q ∈ db.orders, 0 ≤ q.shares) →
      ∀ t ∈ (execute_market_order o db).1, 0 ≤ t.shares ∧ t.shares ≤ o.shares := by
  intro o db hty hsh hq t ht
  unfold execute_market_order at ht
  split at ht
  · simp at ht
  rename_i company hc
  dsimp only at ht
  split at ht
  · simp at ht
  dsimp only at ht
  have hcands : ∀ q ∈ emoCandidates o company db, 0 ≤ q.shares := by
    intro q hmem
    unfold emoCandidates at hmem
    dsimp only at hmem
    rw [hty] at hmem
    rw [if_neg (by simp)] at hmem
    unfold sortDesc at hmem
    rw [List.mem_insertionSort] at hmem
    exact hq q (List.mem_filter.mp hmem).1
  obtain ⟨-, -, b3⟩ := emoLoop_sell_bound o hty (emoCandidates o company db) 0 db [] true
    hcands hsh
  rcases b3 t ht with h | h
  · simp at h
  · exact ⟨h.1, by omega⟩

unseal Rat.mul Rat.add Rat.sub Rat.inv Rat.ofScientific in
/-- C5 (witness): the amended cap applied to the concrete market sell of
`c5db` (10 requested, 10 traded). -/
theorem C5_witness :
    c5t ∈ (execute_market_order c5o c5db).1 ∧ 0 ≤ c5t.shares ∧ c5t.shares ≤ c5o.shares :=
  ⟨by decide,
    C5_amended_market_sell_cap c5o c5db (by decide) (by decide) (by decide) c5t (by decide)⟩

/-- `create_order` either admits the order or leaves the state untouched. -/
theorem create_order_cases (db : DB) (oc : OrderCreate) :
    (∃ o, (create_order db oc).1 = Except.ok o) ∨ (create_order db oc).2 = db := by
  unfold create_order
  split
  · exact Or.inr rfl
  split
  · exact Or.inr rfl
  dsimp only
  split
  · exact Or.inr rfl
  split
  · exact Or.inr rfl
  split
  · exact Or.inr rfl
  split
  · exact Or.inr rfl
  exact Or.inl ⟨_, rfl⟩

/-- C6 (confirmed): order admission is all-or-nothing — whenever
`create_order` returns a rejection, the database state after the call is
exactly the state before it. -/
theorem C6_admission_all_or_nothing :
    ∀ (db : DB) (oc : OrderCreate) (r : RejectReason),
      (create_order db oc).1 = Except.error r → (create_order db oc).2 = db := by
  intro db oc r h
  rcases create_order_cases db oc with ⟨o, ho⟩ | hdb
  · rw [ho] at h
    exact absurd h (by simp)
  · exact hdb

unseal Rat.mul Rat.add Rat.sub Rat.inv Rat.ofScientific in
/-- C6 (witness): a concrete rejection (insufficient funds) leaves the state
unchanged. -/
theorem C6_witness :
    (create_order c6db c6oc).1 = Except.error RejectReason.insufficientFunds ∧
    (create_order c6db c6oc).2 = c6db :=
  ⟨by rfl, C6_admission_all_or_nothing c6db c6oc RejectReason.insufficientFunds (by rfl)⟩

unseal Rat.mul Rat.add Rat.sub Rat.inv Rat.ofScientific in
/-- C8 (confirmed): the spec's example scenario, executed through a full
matching pass.  Exactly `floor(10000/120) = 83` shares trade at 120, A's cash
becomes 40, B's cash 9960 (up by 9960 from 0), B's sell order remains open
with 17 shares at 120, and the outstanding share count stays 200. -/
theorem C8_example_scenario :
    Rat.floor ((10000 : ℚ) / 120) = 83 ∧
    cashOf (match_orders 10 c8db) 1 = 40 ∧
    cashOf (match_orders 10 c8db) 2 = 9960 ∧
    holdsL 1 10 (match_orders 10 c8db).portfolios = 83 ∧
    holdsL 2 10 (match_orders 10 c8db).portfolios = 117 ∧
    (match_orders 10 c8db).transactions.map (fun t => (t.shares, t.price_per_share))
      = [(83, 120)] ∧
    (match_orders 10 c8db).orders.filter (fun o => decide (o.id = 100))
      = [⟨100, 2, 10, OrderType.sell, OrderSubType.limit, 17, some 120⟩] ∧
    outstandingOf (match_orders 10 c8db) 10 = 200 := by
  decide

/-- Existence of a stored row for a pair after `upd_portfolios`, characterised
by the updated count being positive (unique-pair and positive-row state). -/
theorem contains_upd (sid cid : Nat) (c : ℤ) :
    ∀ ps : List DBPortfolio, rowsPos ps →
      ps.countP (fun p => decide (p.shareholder_id = sid ∧ p.company_id = cid)) ≤ 1 →
      ((∃ p ∈ upd_portfolios sid cid c ps,
          p.shareholder_id = sid ∧ p.company_id = cid) ↔
        0 < holdsL sid cid ps + c) := by
  intro ps
  induction ps with
  | nil =>
      intro _ _
      rw [holdsL_nil]
      unfold upd_portfolios
      split
      · rename_i hcpos
        simp only [zero_add]
        constructor
        · intro _; exact hcpos
        · intro _; exact ⟨⟨sid, cid, c⟩, List.mem_singleton.mpr rfl, rfl, rfl⟩
      · rename_i hcneg
        simp only [zero_add]
        constructor
        · intro h; simp at h
        · intro h; exact absurd h hcneg
  | cons p ps ih =>
      intro hpos hcount
      have hpos' : rowsPos ps := fun q hq => hpos q (List.mem_cons_of_mem _ hq)
      rw [List.countP_cons] at hcount
      unfold upd_portfolios
      split
      · rename_i hm
        rw [holdsL_cons, if_pos hm]
        have hzero : ps.countP
            (fun p => decide (p.shareholder_id = sid ∧ p.company_id = cid)) = 0 := by
          rw [decide_eq_true hm] at hcount
          simp only [if_pos] at hcount
          omega
        have hnone := List.countP_eq_zero.mp hzero
        split
        · rename_i hle
          constructor
          · intro ⟨q, hq, hqm⟩
            exact absurd (decide_eq_true hqm) (by simpa using hnone q hq)
          · intro hgt; omega
        · rename_i hgt
          constructor
          · intro _; omega
          · intro _
            exact ⟨{ p with shares := p.shares + c }, List.mem_cons_self _ _, hm.1, hm.2⟩
      · rename_i hm
        rw [holdsL_cons, if_neg hm]
        have hcount' : ps.countP
            (fun p => decide (p.shareholder_id = sid ∧ p.company_id = cid)) ≤ 1 := by
          omega
        rw [← ih hpos' hcount']
        constructor
        · intro ⟨q, hq, hqm⟩
          rcases List.mem_cons.mp hq with rfl | hq'
          · exact absurd hqm hm
          · exact ⟨q, hq', hqm⟩
        · intro ⟨q, hq, hqm⟩
          exact ⟨q, List.mem_cons_of_mem _ hq, hqm⟩

/-- C10 (confirmed): after `update_shareholder_portfolio` on a state whose
rows are positive and unique per pair, a row for the pair exists iff the
updated share count is strictly positive — in particular an over-decrement
(`holding + change < 0`) deletes the row without error — and the store never
contains a row with a non-positive share count. -/
theorem C10_portfolio_row_invariant :
    ∀ (db : DB) (sid cid : Nat) (c : ℤ),
      rowsPos db.portfolios →
      db.portfolios.countP
        (fun p => decide (p.shareholder_id = sid ∧ p.company_id = cid)) ≤ 1 →
      ((∃ p ∈ (update_shareholder_portfolio db sid cid c).portfolios,
          p.shareholder_id = sid ∧ p.company_id = cid) ↔
        0 < holdsL sid cid db.portfolios + c) ∧
      rowsPos (update_shareholder_portfolio db sid cid c).portfolios := by
  intro db sid cid c hpos hcount
  exact ⟨contains_upd sid cid c db.portfolios hpos hcount,
    rowsPos_upd sid cid c db.portfolios hpos⟩

/-- C10 (witness): removing 7 shares from a 5-share row deletes it (the iff's
right side is false), and rows stay positive. -/
theorem C10_witness :
    ((∃ p ∈ (update_shareholder_portfolio c10db 1 10 (-7)).portfolios,
        p.shareholder_id = 1 ∧ p.company_id = 10) ↔
      0 < holdsL 1 10 c10db.portfolios + (-7)) ∧
    rowsPos (update_shareholder_portfolio c10db 1 10 (-7)).portfolios :=
  C10_portfolio_row_invariant c10db 1 10 (-7) (by decide) (by decide)

theorem oprice_congr {a b : Order} (h : a.price = b.price) : oprice a = oprice b := by
  unfold oprice
  rw [h]

/-- `execute_trade` never changes the price field of either order object. -/
theorem execute_trade_prices (buy sell : Order) (db : DB) :
    (execute_trade buy sell db).1.price = buy.price ∧
    (execute_trade buy sell db).2.1.price = sell.price := by
  unfold execute_trade
  split
  · exact ⟨rfl, rfl⟩
  split
  · exact ⟨rfl, rfl⟩
  dsimp only
  split
  · exact ⟨rfl, rfl⟩
  split
  · exact ⟨rfl, rfl⟩
  exact ⟨rfl, rfl⟩

/-- The transactions `execute_trade` appends are all priced at the sell
order's limit price. -/
theorem execute_trade_txns (buy sell : Order) (db : DB) :
    ∃ suf, (execute_trade buy sell db).2.2.transactions = db.transactions ++ suf ∧
      ∀ t ∈ suf, t.price_per_share = oprice sell := by
  rcases execute_trade_shape buy sell db with heq | ⟨t, _, _, _, htx⟩
  · exact ⟨[], by rw [heq, List.append_nil], by simp⟩
  · refine ⟨[_], htx, ?_⟩
    intro u hu
    rcases List.mem_singleton.mp hu with rfl
    rfl

/-- Induction invariant of the inner limit-crossing loop: it appends
transactions priced at some sell order's limit price (which the buy order's
price dominates), and never changes any order's price field. -/
theorem limitInner_txns (b : Order) :
    ∀ (sells : List Order) (db : DB),
      ∃ suf,
        (limitInner b sells db).2.2.transactions = db.transactions ++ suf ∧
        (limitInner b sells db).2.1.map oprice = sells.map oprice ∧
        (limitInner b sells db).1.price = b.price ∧
        ∀ t ∈ suf, ∃ ps ∈ sells.map oprice, t.price_per_share = ps ∧ ps ≤ oprice b := by
  intro sells
  induction sells generalizing b with
  | nil =>
      intro db
      exact ⟨[], by simp [limitInner], rfl, rfl, by simp⟩
  | cons s rest ih =>
      intro db
      rw [limitInner]
      dsimp only
      split
      · rename_i hcross
        obtain ⟨suf1, h1, hps⟩ := execute_trade_txns b s db
        obtain ⟨hbp, hsp⟩ := execute_trade_prices b s db
        split
        · refine ⟨suf1, by simpa using h1, ?_, ?_, ?_⟩
          · dsimp only
            rw [List.map_cons, List.map_cons, oprice_congr hsp]
          · dsimp only
            rw [hbp]
          · intro t htm
            exact ⟨oprice s, by simp, hps t htm, hcross⟩
        · obtain ⟨suf2, h2, hmap2, hbp2, hprop2⟩ :=
            ih (execute_trade b s db).1 (execute_trade b s db).2.2
          refine ⟨suf1 ++ suf2, ?_, ?_, ?_, ?_⟩
          · dsimp only
            rw [h2, h1, List.append_assoc]
          · dsimp only
            rw [List.map_cons, List.map_cons, oprice_congr hsp, hmap2]
          · dsimp only
            rw [hbp2, hbp]
          · intro t htm
            rcases List.mem_append.mp htm with hm | hm
            · exact ⟨oprice s, by simp, hps t hm, hcross⟩
            · obtain ⟨ps, hpsmem, hpe, hple⟩ := hprop2 t hm
              rw [oprice_congr hbp] at hple
              refine ⟨ps, ?_, hpe, hple⟩
              rw [List.map_cons]
              exact List.mem_cons_of_mem _ hpsmem
      · exact ⟨[], by simp, rfl, rfl, by simp⟩

/-- The limit-crossing outer loop appends transactions whose price equals a
resting sell order's limit price dominated by some buy order's limit price. -/
theorem limitOuter_txns :
    ∀ (buys sells : List Order) (db : DB),
      ∃ suf, (limitOuter buys sells db).transactions = db.transactions ++ suf ∧
        ∀ t ∈ suf, ∃ pb ∈ buys.map oprice, ∃ ps ∈ sells.map oprice,
          t.price_per_share = ps ∧ ps ≤ pb := by
  intro buys
  induction buys with
  | nil =>
      intro sells db
      exact ⟨[], by simp [limitOuter], by simp⟩
  | cons b bs ih =>
      intro sells db
      rw [limitOuter]
      obtain ⟨suf1, h1, hmap1, _, hprop1⟩ := limitInner_txns b sells db
      obtain ⟨suf2, h2, hprop2⟩ :=
        ih (limitInner b sells db).2.1 (limitInner b sells db).2.2
      refine ⟨suf1 ++ suf2, ?_, ?_⟩
      · rw [h2, h1, List.append_assoc]
      · intro t ht
        rcases List.mem_append.mp ht with hm | hm
        · obtain ⟨ps, hps, hpe, hple⟩ := hprop1 t hm
          exact ⟨oprice b, by simp, ps, hps, hpe, hple⟩
        · obtain ⟨pb, hpb, ps, hps, hpe, hple⟩ := hprop2 t hm
          rw [hmap1] at hps
          refine ⟨pb, ?_, ps, hps, hpe, hple⟩
          rw [List.map_cons]
          exact List.mem_cons_of_mem _ hpb

/-- C7 (confirmed): every transaction the limit-crossing phase of
`match_orders` adds is priced at the limit price of a resting SELL order whose
price a limit BUY order's price dominates — the recorded price equals the
resting sell's price and lies within `[sell.price, buy.price]` of the matched
pair. -/
theorem C7_limit_crossing_price :
    ∀ (db : DB) (cid : Nat) (t : Transaction),
      t ∈ (limit_phase cid db).transactions →
      t ∈ db.transactions ∨
      ∃ pb ∈ (limitOrdersOf db cid OrderType.buy).map oprice,
        ∃ ps ∈ (limitOrdersOf db cid OrderType.sell).map oprice,
          t.price_per_share = ps ∧ ps ≤ pb := by
  intro db cid t ht
  unfold limit_phase at ht
  obtain ⟨suf, h1, hprop⟩ := limitOuter_txns
    (sortDesc (limitOrdersOf db cid OrderType.buy))
    (sortAsc (limitOrdersOf db cid OrderType.sell)) db
  rw [h1] at ht
  rcases List.mem_append.mp ht with hm | hm
  · exact Or.inl hm
  · obtain ⟨pb, hpb, ps, hps, hpe, hple⟩ := hprop t hm
    obtain ⟨ob, hob, hobe⟩ := List.mem_map.mp hpb
    obtain ⟨os, hos, hose⟩ := List.mem_map.mp hps
    unfold sortDesc at hob
    unfold sortAsc at hos
    refine Or.inr ⟨pb, List.mem_map.mpr ⟨ob, (List.mem_insertionSort _).mp hob, hobe⟩,
      ps, List.mem_map.mpr ⟨os, (List.mem_insertionSort _).mp hos, hose⟩, hpe, hple⟩

unseal Rat.mul Rat.add Rat.sub Rat.inv Rat.ofScientific in
/-- C7 (witness): the limit-crossing price rule applied to a concrete
crossing book (buy at 120 against sell at 100 trades at 100). -/
theorem C7_witness :
    c7t ∈ (limit_phase 10 c7db).transactions ∧
    (c7t ∈ c7db.transactions ∨
      ∃ pb ∈ (limitOrdersOf c7db 10 OrderType.buy).map oprice,
        ∃ ps ∈ (limitOrdersOf c7db 10 OrderType.sell).map oprice,
          c7t.price_per_share = ps ∧ ps ≤ pb) :=
  ⟨by decide, C7_limit_crossing_price c7db 10 c7t (by decide)⟩

/-- The head of the ascending price sort is a minimal-priced element. -/
theorem sortAsc_head_min (l : List Order) (hd : Order) (tl : List Order)
    (h : sortAsc l = hd :: tl) : hd ∈ l ∧ ∀ o ∈ l, oprice hd ≤ oprice o := by
  have hperm := List.perm_insertionSort (fun a b => oprice a ≤ oprice b) l
  unfold sortAsc at h
  have hsorted := List.sorted_insertionSort (fun a b => oprice a ≤ oprice b) l
  rw [h] at hsorted hperm
  constructor
  · exact hperm.mem_iff.mp (List.mem_cons_self hd tl)
  · intro o ho
    rcases List.mem_cons.mp (hperm.mem_iff.mpr ho) with rfl | htl
    · exact le_refl _
    · exact (List.sorted_cons.mp hsorted).1 o htl

/-- Evaluation of `update_stock_price` for an existing company: it returns the
computed oracle price, writes it to the company row, and leaves the state
untouched when the price is unchanged. -/
theorem update_stock_price_eval (db : DB) (cid : Nat) (company : DBCompany)
    (hc : get_company db cid = some company) :
    ∃ np, (update_stock_price db cid).1 = some np ∧
      stockPriceOf (update_stock_price db cid).2 cid = np ∧
      np = (match (sortAsc (limitOrdersOf db cid OrderType.sell)).head? with
        | some lowest => oprice lowest
        | none =>
            match latestTransaction db cid with
            | some t => t.price_per_share
            | none => company.stock_price) ∧
      (np = company.stock_price → (update_stock_price db cid).2 = db) := by
  unfold update_stock_price
  rw [hc]
  dsimp only
  split
  · rename_i hne
    refine ⟨_, rfl, ?_, rfl, ?_⟩
    · exact stockPriceOf_setCompanyPrice db cid _ (by rw [hc]; rfl)
    · intro he; exact absurd he hne
  · rename_i hne
    push_neg at hne
    refine ⟨_, rfl, ?_, rfl, fun _ => rfl⟩
    unfold stockPriceOf
    rw [hc]
    exact hne.symm

/-- What the oracle actually computes: the price of the lowest-priced open
LIMIT SELL order if one exists, else the price of the greatest-id transaction
if one exists (NOT the most recent one — the source ids are random uuid4
strings, see `C9_id_order_code_bug`), else the price is left unchanged; the
resulting price is returned. -/
theorem update_stock_price_rule :
    ∀ (db : DB) (cid : Nat) (company : DBCompany),
      get_company db cid = some company →
      (limitOrdersOf db cid OrderType.sell ≠ [] →
        ∃ l ∈ limitOrdersOf db cid OrderType.sell,
          (∀ o ∈ limitOrdersOf db cid OrderType.sell, oprice l ≤ oprice o) ∧
          (update_stock_price db cid).1 = some (oprice l) ∧
          stockPriceOf (update_stock_price db cid).2 cid = oprice l) ∧
      (limitOrdersOf db cid OrderType.sell = [] →
        ∀ t, latestTransaction db cid = some t →
          (update_stock_price db cid).1 = some t.price_per_share ∧
          stockPriceOf (update_stock_price db cid).2 cid = t.price_per_share) ∧
      (limitOrdersOf db cid OrderType.sell = [] →
        latestTransaction db cid = none →
        (update_stock_price db cid).1 = some company.stock_price ∧
        (update_stock_price db cid).2 = db) := by
  intro db cid company hc
  obtain ⟨np, hret, hsp, hnp, hunch⟩ := update_stock_price_eval db cid company hc
  refine ⟨?_, ?_, ?_⟩
  · intro hne
    cases hhead : (sortAsc (limitOrdersOf db cid OrderType.sell)).head? with
    | none =>
        exfalso
        apply hne
        have hnil := List.head?_eq_none_iff.mp hhead
        have hperm := List.perm_insertionSort (fun a b => oprice a ≤ oprice b)
          (limitOrdersOf db cid OrderType.sell)
        unfold sortAsc at hnil
        rw [hnil] at hperm
        exact hperm.symm.eq_nil
    | some lowest =>
        have hcons : sortAsc (limitOrdersOf db cid OrderType.sell) =
            lowest :: (sortAsc (limitOrdersOf db cid OrderType.sell)).tail := by
          cases hq : sortAsc (limitOrdersOf db cid OrderType.sell) with
          | nil => rw [hq] at hhead; simp at hhead
          | cons a l =>
              rw [hq] at hhead
              simp at hhead
              rw [hhead]
              rfl
        obtain ⟨hmem, hmin⟩ := sortAsc_head_min _ _ _ hcons
        rw [hhead] at hnp
        exact ⟨lowest, hmem, hmin, by rw [hret, hnp], by rw [hsp, hnp]⟩
  · intro hnil t hlt
    have hhead : (sortAsc (limitOrdersOf db cid OrderType.sell)).head? = none := by
      rw [hnil]
      rfl
    rw [hhead, hlt] at hnp
    exact ⟨by rw [hret, hnp], by rw [hsp, hnp]⟩
  · intro hnil hlt
    have hhead : (sortAsc (limitOrdersOf db cid OrderType.sell)).head? = none := by
      rw [hnil]
      rfl
    rw [hhead, hlt] at hnp
    exact ⟨by rw [hret, hnp], hunch hnp⟩

unseal Rat.mul Rat.add Rat.sub Rat.inv Rat.ofScientific in
/-- Concrete instance of `update_stock_price_rule`: with two open limit sells
(105 and 100) and an older transaction, the oracle picks the lowest sell
price 100. -/
theorem update_stock_price_rule_example :
    ∃ l ∈ limitOrdersOf c9db 10 OrderType.sell,
      (∀ o ∈ limitOrdersOf c9db 10 OrderType.sell, oprice l ≤ oprice o) ∧
      (update_stock_price c9db 10).1 = some (oprice l) ∧
      stockPriceOf (update_stock_price c9db 10).2 10 = oprice l :=
  (update_stock_price_rule c9db 10 c9comp (by rfl)).1 (by decide)

unseal Rat.mul Rat.add Rat.sub Rat.inv Rat.ofScientific in
/-- C9 (code_bug): the fallback of `update_stock_price` is
`ORDER BY Transaction.id DESC ... first()` over ids that are random uuid4
strings, so it returns the transaction with the greatest id — not the most
recent one the spec (and the code's own `last_transaction` naming) intend.
In `c9bad` the company has no open limit sells and two transactions, created
at price 100 (id 70) and then at price 50 (id 30): the most recent trade is
at 50, yet the oracle returns 100 and writes 100 to the company row. -/
theorem C9_id_order_code_bug :
    limitOrdersOf c9bad 10 OrderType.sell = [] ∧
    (mostRecentTransaction c9bad 10).map (fun t => t.price_per_share) = some 50 ∧
    (latestTransaction c9bad 10).map (fun t => t.price_per_share) = some 100 ∧
    (update_stock_price c9bad 10).1 = some 100 ∧
    stockPriceOf (update_stock_price c9bad 10).2 10 = 100 ∧
    (100 : ℚ) ≠ 50 := by
  decide

end Deeponomics
